import Mathlib

set_option maxHeartbeats 1000000

/-
  Verification of the multi-threaded branch-and-bound TSP solver
  (pth_tsp_search_nr, part 2: the work-donating variant).

  The C program is shallowly embedded: tours and stack elements become
  structures over `List Int`; every C array access that could go out of
  bounds is modelled with `Option`-returning operations; the concurrent
  search is modelled as a small-step machine over the union of all worker
  stacks, with the stale pruning bound made an explicit nondeterministic
  parameter `b` that is at least the current champion cost (the champion
  cost only decreases, so every value a worker can have cached satisfies
  this).
-/

namespace PthTsp

/-- Sentinel cost used by the program for "no tour yet" (`const int INFINITY`). -/
def INFINITY : Int := 1000000

/-- Sentinel for an unset city slot (`const int NO_CITY`). -/
def NO_CITY : Int := -1

/-- The `tour_t` struct: a cities array (modelled with its full allocated
capacity as the list length), the visited count, and the accumulated cost. -/
structure Tour where
  cities : List Int
  count : Nat
  cost : Int
deriving Repr, DecidableEq

/-- The `stack_elt_t` struct minus the intrusive `next_p` pointer: a stack is
a `List StackElt`. -/
structure StackElt where
  tour : Tour
  city : Int
  cost : Int
deriving Repr, DecidableEq

/-- Bounds-checked array write: `l[i] = v` in C, `none` when out of range. -/
def setAt (l : List Int) (i : Nat) (v : Int) : Option (List Int) :=
  if i < l.length then some (l.set i v) else none

/-- The visited part of a tour: entries `cities[0 .. count-1]`. -/
def tourPfx (t : Tour) : List Int :=
  t.cities.take t.count

/-- `Initialize_tour`: allocate `n+1` city slots, fill with `NO_CITY`,
zero cost and count. -/
def Initialize_tour (n : Nat) : Tour :=
  ⟨List.replicate (n + 1) NO_CITY, 0, 0⟩

/-- `Empty`: the stack is the null pointer. -/
def Empty (stack : List StackElt) : Bool :=
  stack.isEmpty

/-- `Pop`: remove and return the head node; popping an empty stack is
undefined behaviour in the C program, hence `none`. -/
def Pop (stack : List StackElt) : Option (StackElt × List StackElt) :=
  match stack with
  | [] => none
  | e :: rest => some (e, rest)

/-- `Visited`: linear scan of `cities[0 .. count-1]` for `nbr`. -/
def Visited (nbr : Int) (t : Tour) : Bool :=
  (tourPfx t).any (fun c => c == nbr)

/-- `Feasible`: `nbr` is not on the tour and the extension stays strictly
below the cached best cost `l_best_tour`. -/
def Feasible (mat : Int → Int → Int) (city nbr : Int) (t : Tour) (lbest : Int) : Bool :=
  !(Visited nbr t) && decide (t.cost + mat city nbr < lbest)

/-- `Dup_tour`: allocate a fresh array of capacity `n` and copy entries
`0 .. n-1` of the source tour; reading past the source array is `none`. -/
def Dup_tour (n : Nat) (t : Tour) : Option Tour :=
  if n ≤ t.cities.length then some ⟨t.cities.take n, t.count, t.cost⟩ else none

/-- `Push`: duplicate the tour and prepend a new node to the stack. -/
def Push (n : Nat) (t : Tour) (city : Int) (cost : Int) (stack : List StackElt) :
    Option (List StackElt) :=
  (Dup_tour n t).map fun d => (⟨d, city, cost⟩ : StackElt) :: stack

/-- `Check_best_tour` (lines 717-734): under the read lock, snapshot the
champion's cost into the caller's `l_best_tour`; if the candidate's cost plus
the closing edge `mat[city][0]` beats the champion, re-check after upgrading
to the write lock (in this atomic model the re-check repeats the same test)
and copy the candidate over the champion: entries `0 .. count-1` from the
candidate, entry `n` set to the home city, count `n+1`, cost updated.
Returns the new champion and the caller's refreshed bound; `none` models an
out-of-bounds array access during the copy. -/
def Check_best_tour (mat : Int → Int → Int) (n : Nat) (city : Int) (t : Tour)
    (best : Tour) : Option (Tour × Int) :=
  let lbest := best.cost
  if t.cost + mat city 0 < best.cost then
    if t.cost + mat city 0 < best.cost then
      if t.count ≤ t.cities.length ∧ t.count ≤ best.cities.length then
        match setAt (t.cities.take t.count ++ best.cities.drop t.count) n 0 with
        | some cs => some (⟨cs, n + 1, t.cost + mat city 0⟩, lbest)
        | none => none
      else none
    else some (best, lbest)
  else some (best, lbest)

end PthTsp

namespace PthTsp

/-! ## Split_stack (lines 912-966) -/

/-- The body of `Split_stack`'s while loop: the remnant list is consumed
alternately, first node appended to the donor's retained list, second node to
the staged list, with both size counters maintained. -/
def splitLoop : List α → List α → List α → Nat → Nat → (List α × List α × Nat × Nat)
  | [], my, nw, ms, ns => (my, nw, ms, ns)
  | [c], my, nw, ms, ns => (my ++ [c], nw, ms + 1, ns)
  | c :: d :: rest, my, nw, ms, ns => splitLoop rest (my ++ [c]) (nw ++ [d]) (ms + 1) (ns + 1)

/-- `Split_stack`: the head stays with the donor, the second node seeds the
staged stack, and the loop distributes the remnant alternately.  The C code
assumes at least two nodes (`new_stack = my_stack->next_p` then
`new_p->next_p` dereference); fewer is undefined behaviour, hence `none`.
Returns (retained list, staged list, retained size, staged size). -/
def Split_stack : List α → Option (List α × List α × Nat × Nat)
  | a :: b :: rest => some (splitLoop rest [a] [b] 1 1)
  | _ => none

/-- Modelled from the spec: strict alternation of a list, first element to
the first component, second to the second, and so on. -/
def altSplit : List α → List α × List α
  | [] => ([], [])
  | a :: rest =>
    let p := altSplit rest
    (a :: p.2, p.1)

theorem altSplit_length : ∀ l : List α,
    (altSplit l).1.length = (l.length + 1) / 2 ∧ (altSplit l).2.length = l.length / 2
  | [] => by simp [altSplit]
  | a :: rest => by
    obtain ⟨h1, h2⟩ := altSplit_length rest
    simp only [altSplit, List.length_cons]
    omega

theorem altSplit_perm : ∀ l : List α, ((altSplit l).1 ++ (altSplit l).2).Perm l
  | [] => .nil
  | a :: rest => by
    simp only [altSplit, List.cons_append]
    exact .cons a ((List.perm_append_comm).trans (altSplit_perm rest))

theorem splitLoop_eq : ∀ (rest my nw : List α) (ms ns : Nat),
    splitLoop rest my nw ms ns =
      (my ++ (altSplit rest).1, nw ++ (altSplit rest).2,
        ms + (altSplit rest).1.length, ns + (altSplit rest).2.length)
  | [], my, nw, ms, ns => by simp [splitLoop, altSplit]
  | [c], my, nw, ms, ns => by simp [splitLoop, altSplit]
  | c :: d :: rest, my, nw, ms, ns => by
    simp only [splitLoop, altSplit]
    rw [splitLoop_eq rest]
    simp [List.append_assoc]
    omega

theorem altSplit_sublist : ∀ l : List α, (altSplit l).1.Sublist l ∧ (altSplit l).2.Sublist l
  | [] => by simp [altSplit]
  | a :: rest => by
    obtain ⟨h1, h2⟩ := altSplit_sublist rest
    simp only [altSplit]
    exact ⟨List.Sublist.cons₂ a h2, List.Sublist.cons a h1⟩

theorem altSplit_two_step (a b : α) (rest : List α) :
    altSplit (a :: b :: rest) = (a :: (altSplit rest).1, b :: (altSplit rest).2) := by
  simp [altSplit]

theorem altSplit_get : ∀ (l : List α) (i : Nat),
    (altSplit l).1[i]? = l[2 * i]? ∧ (altSplit l).2[i]? = l[2 * i + 1]?
  | [], i => by simp [altSplit]
  | [a], i => by
    match i with
    | 0 => simp [altSplit]
    | j + 1 => simp [altSplit]; omega
  | a :: b :: rest, i => by
    rw [altSplit_two_step]
    match i with
    | 0 => simp
    | j + 1 =>
      obtain ⟨h1, h2⟩ := altSplit_get rest j
      constructor
      · have : 2 * (j + 1) = 2 * j + 1 + 1 := by omega
        rw [this]
        simpa using h1
      · have : 2 * (j + 1) + 1 = 2 * j + 1 + 1 + 1 := by omega
        rw [this]
        simpa using h2

theorem Split_stack_eq (a b : α) (rest : List α) :
    Split_stack (a :: b :: rest) =
      some ((altSplit (a :: b :: rest)).1, (altSplit (a :: b :: rest)).2,
        (altSplit (a :: b :: rest)).1.length, (altSplit (a :: b :: rest)).2.length) := by
  simp only [Split_stack, splitLoop_eq, altSplit]
  simp
  omega

/-- C3: for every work stack of size `k ≥ 2`, `Split_stack` partitions it by
strict alternation — the donor keeps the nodes at positions 1, 3, 5, … and the
staged half receives the nodes at positions 2, 4, …; both halves are
subsequences of the original (relative order preserved), their concatenation
is a permutation of the original (each node covered exactly once), their sizes
are `⌈k/2⌉` and `⌊k/2⌋`, and exactly those sizes are returned as the stored
counts for the donor's stack and the staging slot. -/
theorem claim_C3_split_stack (α : Type _) (l : List α) (h : 2 ≤ l.length) :
    ∃ my nw : List α,
      Split_stack l = some (my, nw, my.length, nw.length) ∧
      (∀ i, my[i]? = l[2 * i]?) ∧
      (∀ i, nw[i]? = l[2 * i + 1]?) ∧
      my.Sublist l ∧ nw.Sublist l ∧
      (my ++ nw).Perm l ∧
      my.length = (l.length + 1) / 2 ∧
      nw.length = l.length / 2 := by
  match l, h with
  | a :: b :: rest, _ =>
    refine ⟨(altSplit (a :: b :: rest)).1, (altSplit (a :: b :: rest)).2,
      Split_stack_eq a b rest, ?_, ?_, (altSplit_sublist _).1, (altSplit_sublist _).2,
      altSplit_perm _, (altSplit_length _).1, (altSplit_length _).2⟩
    · exact fun i => (altSplit_get (a :: b :: rest) i).1
    · exact fun i => (altSplit_get (a :: b :: rest) i).2

/-- Witness for C3 at the concrete five-element stack `[1, 2, 3, 4, 5]`. -/
theorem claim_C3_split_stack_witness :
    2 ≤ ([1, 2, 3, 4, 5] : List Nat).length ∧
      ∃ my nw : List Nat,
        Split_stack [1, 2, 3, 4, 5] = some (my, nw, my.length, nw.length) ∧
        (∀ i, my[i]? = ([1, 2, 3, 4, 5] : List Nat)[2 * i]?) ∧
        (∀ i, nw[i]? = ([1, 2, 3, 4, 5] : List Nat)[2 * i + 1]?) ∧
        my.Sublist [1, 2, 3, 4, 5] ∧ nw.Sublist [1, 2, 3, 4, 5] ∧
        (my ++ nw).Perm [1, 2, 3, 4, 5] ∧
        my.length = (([1, 2, 3, 4, 5] : List Nat).length + 1) / 2 ∧
        nw.length = ([1, 2, 3, 4, 5] : List Nat).length / 2 :=
  ⟨by decide, claim_C3_split_stack Nat [1, 2, 3, 4, 5] (by decide)⟩

/-! ## Check_best_tour: the champion registry (lines 717-734) -/

theorem Check_best_tour_not_better (mat : Int → Int → Int) (n : Nat) (city : Int)
    (t best : Tour) (h : ¬ t.cost + mat city 0 < best.cost) :
    Check_best_tour mat n city t best = some (best, best.cost) := by
  simp [Check_best_tour, h]

theorem Check_best_tour_update (mat : Int → Int → Int) (n : Nat) (city : Int)
    (t best : Tour) (h : t.cost + mat city 0 < best.cost)
    (h1 : t.count ≤ t.cities.length) (h2 : t.count ≤ best.cities.length)
    (h3 : n < best.cities.length) :
    Check_best_tour mat n city t best =
      some (⟨(t.cities.take t.count ++ best.cities.drop t.count).set n 0,
        n + 1, t.cost + mat city 0⟩, best.cost) := by
  have hlen : (t.cities.take t.count ++ best.cities.drop t.count).length =
      best.cities.length := by
    simp [List.length_take, List.length_drop]
    omega
  simp only [Check_best_tour, if_pos h, if_pos (And.intro h1 h2), setAt, hlen, if_pos h3]

/-- C4: `Check_best_tour` snapshots the champion cost into the caller's
cached bound, and updates the champion exactly when the candidate's cost plus
the closing edge `mat[city][0]` is strictly below the champion's cost (the
write-lock re-check repeats the same comparison); on an update, the champion
becomes the candidate's visited sequence with the home city appended at index
`n`, count `n + 1`, and cost equal to the candidate's cost plus the closing
edge; otherwise the champion is returned completely unchanged. -/
theorem claim_C4_check_best_tour (mat : Int → Int → Int) (n : Nat) (city : Int)
    (t best : Tour) (hcount : t.count = n) (hlen : n ≤ t.cities.length)
    (hblen : best.cities.length = n + 1) :
    ∃ best2 lread,
      Check_best_tour mat n city t best = some (best2, lread) ∧
      lread = best.cost ∧
      (t.cost + mat city 0 < best.cost →
        best2 = ⟨t.cities.take n ++ [0], n + 1, t.cost + mat city 0⟩) ∧
      (¬ t.cost + mat city 0 < best.cost → best2 = best) := by
  by_cases h : t.cost + mat city 0 < best.cost
  · refine ⟨_, _, Check_best_tour_update mat n city t best h (hcount ▸ hlen)
      (by omega) (by omega), rfl, ?_, fun hc => absurd h hc⟩
    intro _
    obtain ⟨x, hx⟩ : ∃ x, best.cities.drop n = [x] := by
      apply List.length_eq_one.mp
      simp [List.length_drop, hblen]
    have htake : (t.cities.take n).length = n := by
      simp [List.length_take]
      omega
    rw [hcount, hx, List.set_append, htake, if_neg (lt_irrefl n)]
    simp [List.set]
  · exact ⟨best, best.cost, Check_best_tour_not_better mat n city t best h, rfl,
      fun hc => absurd hc h, fun _ => rfl⟩

/-- Witness for C4: a complete 2-city candidate tour against the freshly
initialized champion. -/
theorem claim_C4_check_best_tour_witness :
    ((⟨[0, 1], 2, 5⟩ : Tour).count = 2 ∧ 2 ≤ (⟨[0, 1], 2, 5⟩ : Tour).cities.length ∧
      (⟨[-1, -1, -1], 0, INFINITY⟩ : Tour).cities.length = 2 + 1) ∧
    ∃ best2 lread,
      Check_best_tour (fun _ _ => 7) 2 1 ⟨[0, 1], 2, 5⟩ ⟨[-1, -1, -1], 0, INFINITY⟩ =
        some (best2, lread) ∧
      lread = (⟨[-1, -1, -1], 0, INFINITY⟩ : Tour).cost ∧
      ((⟨[0, 1], 2, 5⟩ : Tour).cost + 7 < (⟨[-1, -1, -1], 0, INFINITY⟩ : Tour).cost →
        best2 = ⟨([0, 1] : List Int).take 2 ++ [0], 2 + 1,
          (⟨[0, 1], 2, 5⟩ : Tour).cost + 7⟩) ∧
      (¬ (⟨[0, 1], 2, 5⟩ : Tour).cost + 7 < (⟨[-1, -1, -1], 0, INFINITY⟩ : Tour).cost →
        best2 = ⟨[-1, -1, -1], 0, INFINITY⟩) :=
  ⟨⟨rfl, by decide, rfl⟩,
    claim_C4_check_best_tour (fun _ _ => 7) 2 1 ⟨[0, 1], 2, 5⟩
      ⟨[-1, -1, -1], 0, INFINITY⟩ rfl (by decide) rfl⟩

/-! ## A finite sequence of submissions to the registry (claim C8) -/

/-- Closing cost of a submitted complete tour: its accumulated cost plus the
edge from its final city back home. -/
def closingCost (mat : Int → Int → Int) (s : Int × Tour) : Int :=
  s.2.cost + mat s.1 0

/-- Apply a finite sequence of complete-tour submissions to the champion,
one `Check_best_tour` after another (each call threading the champion and the
caller's cached bound). -/
def commitAll (mat : Int → Int → Int) (n : Nat) (best : Tour) (lbest : Int) :
    List (Int × Tour) → Option (Tour × Int)
  | [] => some (best, lbest)
  | s :: rest =>
    match Check_best_tour mat n s.1 s.2 best with
    | some (b2, l2) => commitAll mat n b2 l2 rest
    | none => none

theorem Check_best_tour_spec (mat : Int → Int → Int) (n : Nat) (city : Int)
    (t best : Tour) (h1 : t.count ≤ t.cities.length) (h2 : t.count ≤ n + 1)
    (hb : best.cities.length = n + 1) :
    ∃ b2, Check_best_tour mat n city t best = some (b2, best.cost) ∧
      b2.cost = min best.cost (t.cost + mat city 0) ∧
      b2.cities.length = n + 1 := by
  by_cases h : t.cost + mat city 0 < best.cost
  · rw [Check_best_tour_update mat n city t best h h1 (by omega) (by omega)]
    refine ⟨_, rfl, ?_, ?_⟩
    · simp
      omega
    · simp [List.length_take, List.length_drop]
      omega
  · rw [Check_best_tour_not_better mat n city t best h]
    exact ⟨best, rfl, by omega, hb⟩

theorem commitAll_spec (mat : Int → Int → Int) (n : Nat) :
    ∀ (subs : List (Int × Tour)) (best : Tour) (lbest : Int),
    best.cities.length = n + 1 →
    (∀ s ∈ subs, s.2.count ≤ s.2.cities.length ∧ s.2.count ≤ n + 1) →
    ∃ b2 l2, commitAll mat n best lbest subs = some (b2, l2) ∧
      b2.cities.length = n + 1 ∧
      b2.cost = (subs.map (closingCost mat)).foldl min best.cost
  | [], best, lbest, hb, _ => ⟨best, lbest, rfl, hb, rfl⟩
  | s :: rest, best, lbest, hb, hs => by
    obtain ⟨hs1, hs2⟩ := hs s (List.mem_cons_self s rest)
    obtain ⟨b2, hcb, hcost, hlen⟩ := Check_best_tour_spec mat n s.1 s.2 best hs1 hs2 hb
    obtain ⟨b3, l3, hrest, hlen3, hcost3⟩ :=
      commitAll_spec mat n rest b2 best.cost hlen
        (fun x hx => hs x (List.mem_cons_of_mem s hx))
    refine ⟨b3, l3, ?_, hlen3, ?_⟩
    · simp only [commitAll, hcb]
      exact hrest
    · simp only [List.map_cons, List.foldl_cons]
      rw [hcost3, hcost]
      rfl

theorem foldl_min_spec (l : List Int) : ∀ a : Int,
    l.foldl min a ≤ a ∧ (∀ x ∈ l, l.foldl min a ≤ x) ∧
      (l.foldl min a = a ∨ l.foldl min a ∈ l) := by
  induction l with
  | nil => exact fun a => ⟨le_refl a, by simp, Or.inl rfl⟩
  | cons x l ih =>
    intro a
    obtain ⟨h1, h2, h3⟩ := ih (min a x)
    have hfold : (x :: l).foldl min a = l.foldl min (min a x) := rfl
    rw [hfold]
    refine ⟨le_trans h1 (min_le_left a x), ?_, ?_⟩
    · intro y hy
      rcases List.mem_cons.mp hy with rfl | hy
      · exact le_trans h1 (min_le_right a y)
      · exact h2 y hy
    · rcases h3 with h3 | h3
      · rcases min_choice a x with hm | hm
        · exact Or.inl (h3.trans hm)
        · exact Or.inr (by rw [h3, hm]; exact List.mem_cons_self x l)
      · exact Or.inr (List.mem_cons_of_mem x h3)

/-- C8: applying any finite sequence of complete-tour submissions to the
champion, one after another, succeeds and leaves the champion cost at the
minimum of the initial cost and all the submitted closing costs; the result
is independent of the submission order, the cost never increases, and a
further submission whose closing cost is not strictly below the champion's
cost leaves the champion (and the refreshed bound) completely unchanged. -/
theorem claim_C8_registry_monoid (mat : Int → Int → Int) (n : Nat) (best : Tour)
    (lbest : Int) (subs : List (Int × Tour)) (hb : best.cities.length = n + 1)
    (hs : ∀ s ∈ subs, s.2.count ≤ s.2.cities.length ∧ s.2.count ≤ n + 1) :
    ∃ b2 l2, commitAll mat n best lbest subs = some (b2, l2) ∧
      b2.cost ≤ best.cost ∧
      (∀ s ∈ subs, b2.cost ≤ closingCost mat s) ∧
      (b2.cost = best.cost ∨ ∃ s ∈ subs, b2.cost = closingCost mat s) ∧
      (∀ subs2 lbest2 b3 l3, subs.Perm subs2 →
        commitAll mat n best lbest2 subs2 = some (b3, l3) → b3.cost = b2.cost) ∧
      (∀ c t, ¬ t.cost + mat c 0 < b2.cost →
        Check_best_tour mat n c t b2 = some (b2, b2.cost)) := by
  obtain ⟨b2, l2, hrun, hlen2, hcost2⟩ := commitAll_spec mat n subs best lbest hb hs
  obtain ⟨hle, hmem, heq⟩ := foldl_min_spec (subs.map (closingCost mat)) best.cost
  rw [← hcost2] at hle hmem heq
  refine ⟨b2, l2, hrun, hle, ?_, ?_, ?_, ?_⟩
  · intro s hsmem
    exact hmem _ (List.mem_map_of_mem (closingCost mat) hsmem)
  · rcases heq with heq | heq
    · exact Or.inl heq
    · obtain ⟨s, hsmem, hseq⟩ := List.mem_map.mp heq
      exact Or.inr ⟨s, hsmem, hseq.symm⟩
  · intro subs2 lbest2 b3 l3 hperm hrun2
    obtain ⟨b3', l3', hrun', hlen3, hcost3⟩ := commitAll_spec mat n subs2 best lbest2 hb
      (fun x hx => hs x (hperm.mem_iff.mpr hx))
    rw [hrun2] at hrun'
    injection hrun' with hpair
    injection hpair with hb3 hl3
    subst hb3
    subst hl3
    obtain ⟨hle3, hmem3, heq3⟩ := foldl_min_spec (subs2.map (closingCost mat)) best.cost
    rw [← hcost3] at hle3 hmem3 heq3
    have hpm : (subs.map (closingCost mat)).Perm (subs2.map (closingCost mat)) :=
      hperm.map (closingCost mat)
    apply le_antisymm
    · rcases heq with heq | heq
      · rw [heq]; exact hle3
      · exact hmem3 _ (hpm.mem_iff.mp heq)
    · rcases heq3 with heq3 | heq3
      · rw [heq3]; exact hle
      · exact hmem _ (hpm.mem_iff.mpr heq3)
  · intro c t hnot
    exact Check_best_tour_not_better mat n c t b2 hnot

/-! ## Problem seeding: the block decomposition in Search (lines 644-676) -/

/-- `quotient = (n - 1) / thread_count`. -/
def quotientOf (n T : Nat) : Nat := (n - 1) / T

/-- `remainder = (n - 1) % thread_count`. -/
def remainderOf (n T : Nat) : Nat := (n - 1) % T

/-- `partial_tour_count` for a given rank. -/
def partTourCount (n T r : Nat) : Nat :=
  if r < remainderOf n T then quotientOf n T + 1 else quotientOf n T

/-- `first_final_city` for a given rank. -/
def firstFinalCity (n T r : Nat) : Nat :=
  if r < remainderOf n T then r * (quotientOf n T + 1) + 1
  else r * quotientOf n T + remainderOf n T + 1

/-- The contiguous slice of first-move cities assigned to a rank:
`first_final_city .. first_final_city + partial_tour_count - 1`. -/
def seedCities (n T r : Nat) : List Nat :=
  List.range' (firstFinalCity n T r) (partTourCount n T r)

/-- The seed tour built before the first push: `Initialize_tour`, then
`cities[0] = 0` and `count = 1`, cost still `0`. -/
def seedTour (n : Nat) : Tour :=
  ⟨(Initialize_tour n).cities.set 0 0, 1, 0⟩

/-- The initial stack nodes a rank builds: one per assigned city `i`, holding
the seed tour, candidate city `i`, and edge cost `mat[i] = mat[0][i]`. -/
def seedItems (mat : Int → Int → Int) (n T r : Nat) : List StackElt :=
  (seedCities n T r).map (fun (i : Nat) => ⟨seedTour n, (i : Int), mat 0 (i : Int)⟩)

theorem firstFinalCity_succ (n T r : Nat) :
    firstFinalCity n T (r + 1) = firstFinalCity n T r + partTourCount n T r := by
  unfold firstFinalCity partTourCount
  rcases Nat.lt_or_ge (r + 1) (remainderOf n T) with h2 | h2
  · rw [if_pos h2, if_pos (by omega), if_pos (by omega)]
    ring
  · rcases Nat.lt_or_ge r (remainderOf n T) with h | h
    · rw [if_neg (by omega), if_pos h, if_pos h]
      have : remainderOf n T = r + 1 := by omega
      rw [this]
      ring
    · rw [if_neg (by omega), if_neg (by omega), if_neg (by omega)]
      ring

theorem firstFinalCity_zero (n T : Nat) : firstFinalCity n T 0 = 1 := by
  unfold firstFinalCity
  rcases Nat.lt_or_ge 0 (remainderOf n T) with h | h
  · rw [if_pos h]
    omega
  · rw [if_neg (by omega)]
    omega

theorem firstFinalCity_last (n T : Nat) (hn : 1 ≤ n) (hT : 1 ≤ T) :
    firstFinalCity n T T = n := by
  have hdm : T * quotientOf n T + remainderOf n T = n - 1 :=
    Nat.div_add_mod (n - 1) T
  have hrem : remainderOf n T < T := Nat.mod_lt (n - 1) (by omega)
  unfold firstFinalCity
  rw [if_neg (by omega)]
  rw [hdm]
  omega

theorem firstFinalCity_mono (n T : Nat) : ∀ r1 r2, r1 ≤ r2 →
    firstFinalCity n T r1 ≤ firstFinalCity n T r2 := by
  intro r1 r2 h
  induction r2 with
  | zero => simp_all
  | succ m ih =>
    rcases Nat.lt_or_ge r1 (m + 1) with h2 | h2
    · calc firstFinalCity n T r1 ≤ firstFinalCity n T m := ih (by omega)
        _ ≤ _ := by rw [firstFinalCity_succ]; omega
    · have heq : r1 = m + 1 := by omega
      rw [heq]

theorem seedCities_union (n T : Nat) : ∀ k,
    (List.range k).flatMap (fun r => seedCities n T r) =
      List.range' 1 (firstFinalCity n T k - 1) := by
  intro k
  induction k with
  | zero => simp [firstFinalCity_zero]
  | succ m ih =>
    rw [List.range_succ, List.flatMap_append, ih]
    simp only [List.flatMap_cons, List.flatMap_nil, List.append_nil, seedCities]
    have h1 : 1 ≤ firstFinalCity n T m := by
      have := firstFinalCity_zero n T
      have := firstFinalCity_mono n T 0 m (by omega)
      omega
    rw [firstFinalCity_succ]
    obtain ⟨a2, ha⟩ : ∃ a2, firstFinalCity n T m = a2 + 1 :=
      ⟨firstFinalCity n T m - 1, by omega⟩
    rw [ha, Nat.add_comm a2 1,
      show (1 + a2 : Nat) - 1 = a2 from by omega, List.range'_append_1]
    congr 1
    omega

/-- C7: for every `n ≥ 1` and `thread_count ≥ 1` the per-rank first-move
slices are contiguous runs, pairwise disjoint, their union over ranks
`0 .. T-1` is exactly the cities `1 .. n-1`, ranks below `(n-1) mod T`
receive `⌈(n-1)/T⌉` cities and the remaining ranks `⌊(n-1)/T⌋`, and every
seed stack node consists of the one-city tour `[0]` with cost `0`, the
assigned city as candidate, and the edge cost `mat[0][city]`. -/
theorem claim_C7_seed_slices (mat : Int → Int → Int) (n T : Nat)
    (hn : 1 ≤ n) (hT : 1 ≤ T) :
    ((List.range T).flatMap (fun r => seedCities n T r) = List.range' 1 (n - 1)) ∧
    (∀ r1 r2, r1 ≠ r2 → (seedCities n T r1).Disjoint (seedCities n T r2)) ∧
    (∀ r, seedCities n T r =
      List.range' (firstFinalCity n T r) (partTourCount n T r)) ∧
    (∀ r, r < remainderOf n T → partTourCount n T r = (n - 1 + (T - 1)) / T) ∧
    (∀ r, remainderOf n T ≤ r → partTourCount n T r = (n - 1) / T) ∧
    (∀ r it, it ∈ seedItems mat n T r → it.tour.count = 1 ∧
      tourPfx it.tour = [0] ∧ it.tour.cost = 0 ∧
      ∃ c ∈ seedCities n T r, it.city = (c : Int) ∧ it.cost = mat 0 (c : Int)) := by
  have hTpos : 0 < T := by omega
  have hdm : T * quotientOf n T + remainderOf n T = n - 1 := Nat.div_add_mod (n - 1) T
  have hrem : remainderOf n T < T := Nat.mod_lt (n - 1) hTpos
  refine ⟨?_, ?_, fun r => rfl, ?_, ?_, ?_⟩
  · rw [seedCities_union, firstFinalCity_last n T hn hT]
  · intro r1 r2 hne
    have key : ∀ a b, a < b → (seedCities n T a).Disjoint (seedCities n T b) := by
      intro a b hab x hxa hxb
      rw [seedCities, List.mem_range'_1] at hxa hxb
      have h1 : firstFinalCity n T (a + 1) ≤ firstFinalCity n T b :=
        firstFinalCity_mono n T (a + 1) b (by omega)
      rw [firstFinalCity_succ] at h1
      omega
    rcases Nat.lt_or_ge r1 r2 with h | h
    · exact key r1 r2 h
    · exact (key r2 r1 (by omega)).symm
  · intro r hr
    have hrempos : 1 ≤ remainderOf n T := by omega
    unfold partTourCount
    rw [if_pos hr]
    have hsplit : n - 1 + (T - 1) = T * (quotientOf n T + 1) + (remainderOf n T - 1) := by
      rw [Nat.mul_add, Nat.mul_one]
      omega
    rw [hsplit, Nat.mul_add_div hTpos, Nat.div_eq_of_lt (by omega)]
  · intro r hr
    unfold partTourCount
    rw [if_neg (by omega)]
    rfl
  · intro r it hit
    obtain ⟨c, hc, rfl⟩ := List.mem_map.mp hit
    refine ⟨rfl, ?_, rfl, ?_⟩
    · have hrep : (Initialize_tour n).cities = NO_CITY :: List.replicate n NO_CITY := by
        simp [Initialize_tour, List.replicate_succ]
      simp [tourPfx, seedTour, hrep, List.set]
    · exact ⟨c, hc, rfl, rfl⟩

/-- Witness for C7 at `n = 5`, `thread_count = 2`. -/
theorem claim_C7_seed_slices_witness :
    (1 ≤ 5 ∧ 1 ≤ 2) ∧
    (((List.range 2).flatMap (fun r => seedCities 5 2 r) = List.range' 1 (5 - 1)) ∧
    (∀ r1 r2, r1 ≠ r2 → (seedCities 5 2 r1).Disjoint (seedCities 5 2 r2)) ∧
    (∀ r, seedCities 5 2 r =
      List.range' (firstFinalCity 5 2 r) (partTourCount 5 2 r)) ∧
    (∀ r, r < remainderOf 5 2 → partTourCount 5 2 r = (5 - 1 + (2 - 1)) / 2) ∧
    (∀ r, remainderOf 5 2 ≤ r → partTourCount 5 2 r = (5 - 1) / 2) ∧
    (∀ r it, it ∈ seedItems (fun _ _ => 3) 5 2 r → it.tour.count = 1 ∧
      tourPfx it.tour = [0] ∧ it.tour.cost = 0 ∧
      ∃ c ∈ seedCities 5 2 r, it.city = (c : Int) ∧ it.cost = 3)) :=
  ⟨⟨by omega, by omega⟩, claim_C7_seed_slices (fun _ _ => 3) 5 2 (by omega) (by omega)⟩

/-! ## The worker expansion step (Search lines 684-703) -/

/-- The neighbor enumeration order of the expansion loop:
`for (nbr = n - 1; nbr > 0; nbr--)`, that is `n-1, n-2, …, 1`. -/
def descCities (n : Nat) : List Int :=
  ((List.range' 1 (n - 1)).reverse).map (fun (k : Nat) => (k : Int))

/-- Extending the popped tour in place: `cities[count] = city; cost += cost;
count++`. -/
def extendTour (it : StackElt) : Option Tour :=
  (setAt it.tour.cities it.tour.count it.city).map
    (fun cs => ⟨cs, it.tour.count + 1, it.tour.cost + it.cost⟩)

/-- The expansion loop over a list of candidate neighbors, pushing each
feasible one onto the running stack. -/
def expandLoop (mat : Int → Int → Int) (n : Nat) (t : Tour) (city : Int)
    (lbest : Int) : List Int → List StackElt → Option (List StackElt)
  | [], stack => some stack
  | nbr :: rest, stack =>
    if Feasible mat city nbr t lbest then
      match Push n t nbr (mat city nbr) stack with
      | some stack2 => expandLoop mat n t city lbest rest stack2
      | none => none
    else expandLoop mat n t city lbest rest stack

/-- The stack node `Push` builds for a feasible neighbor: the duplicated
tour, the neighbor, and the edge cost `mat[n*city + nbr]`. -/
def mkPushed (mat : Int → Int → Int) (n : Nat) (t : Tour) (city nbr : Int) :
    StackElt :=
  ⟨⟨t.cities.take n, t.count, t.cost⟩, nbr, mat city nbr⟩

/-- One iteration of the worker loop body on a popped node, with the stale
pruning bound `b` supplied explicitly: extend the tour; if complete, submit
it to the registry; otherwise push the feasible neighbors in descending
order.  Returns the nodes pushed and the (possibly updated) champion. -/
def stepItem (mat : Int → Int → Int) (n : Nat) (it : StackElt) (b : Int)
    (best : Tour) : Option (List StackElt × Tour) :=
  match extendTour it with
  | none => none
  | some t =>
    if t.count = n then
      match Check_best_tour mat n it.city t best with
      | none => none
      | some (b2, _) => some ([], b2)
    else
      match expandLoop mat n t it.city b (descCities n) [] with
      | none => none
      | some pushed => some (pushed, best)

/-- One full iteration of the sequential worker loop body (Search lines
685-702), threading the worker's cached bound `l_best_tour`: pop the top
node, extend, then either check the complete tour against the champion
(which refreshes the cached bound) or push the feasible neighbors onto the
remaining stack. -/
def searchBody (mat : Int → Int → Int) (n : Nat) (stack : List StackElt)
    (best : Tour) (lbest : Int) : Option (List StackElt × Tour × Int) :=
  match Pop stack with
  | none => none
  | some (it, rest) =>
    match extendTour it with
    | none => none
    | some t =>
      if t.count = n then
        match Check_best_tour mat n it.city t best with
        | none => none
        | some (b2, l2) => some (rest, b2, l2)
      else
        match expandLoop mat n t it.city lbest (descCities n) rest with
        | none => none
        | some stack2 => some (stack2, best, lbest)

theorem Dup_tour_some (n : Nat) (t : Tour) (h : n ≤ t.cities.length) :
    Dup_tour n t = some ⟨t.cities.take n, t.count, t.cost⟩ := by
  simp [Dup_tour, h]

theorem expandLoop_eq (mat : Int → Int → Int) (n : Nat) (t : Tour)
    (city b : Int) (h : n ≤ t.cities.length) :
    ∀ (l : List Int) (acc : List StackElt),
    expandLoop mat n t city b l acc =
      some (((l.filter (fun nbr => Feasible mat city nbr t b)).reverse.map
        (mkPushed mat n t city)) ++ acc)
  | [], acc => by simp [expandLoop]
  | nbr :: rest, acc => by
    by_cases hf : Feasible mat city nbr t b
    · simp only [expandLoop, if_pos hf, Push, Dup_tour_some n t h, Option.map_some]
      show expandLoop mat n t city b rest
        ((⟨⟨t.cities.take n, t.count, t.cost⟩, nbr, mat city nbr⟩ : StackElt) :: acc) = _
      rw [expandLoop_eq mat n t city b h rest]
      simp [List.filter_cons, hf, mkPushed, List.append_assoc]
    · simp only [expandLoop, if_neg hf]
      rw [expandLoop_eq mat n t city b h rest]
      simp only [List.filter_cons]
      rw [if_neg (by simp [hf])]

theorem extendTour_some (it : StackElt) (t : Tour) (hext : extendTour it = some t) :
    it.tour.count < it.tour.cities.length ∧
      t = ⟨it.tour.cities.set it.tour.count it.city, it.tour.count + 1,
        it.tour.cost + it.cost⟩ := by
  unfold extendTour setAt at hext
  by_cases h : it.tour.count < it.tour.cities.length
  · rw [if_pos h] at hext
    simp at hext
    exact ⟨h, hext.symm⟩
  · rw [if_neg h] at hext
    simp at hext

theorem descCities_sorted (n : Nat) : (descCities n).Chain' (· > ·) := by
  apply List.Pairwise.chain'
  unfold descCities
  rw [List.pairwise_map, List.pairwise_reverse]
  exact (List.pairwise_lt_range' 1 (n - 1)).imp (by intro a b hab; exact_mod_cast hab)

theorem mem_descCities (n : Nat) : ∀ k : Int, k ∈ descCities n ↔ 0 < k ∧ k < (n : Int) := by
  intro k
  unfold descCities
  rw [List.mem_map]
  constructor
  · rintro ⟨m, hm, rfl⟩
    rw [List.mem_reverse, List.mem_range'_1] at hm
    omega
  · intro hk
    refine ⟨k.toNat, ?_, by omega⟩
    rw [List.mem_reverse, List.mem_range'_1]
    omega

theorem Visited_iff (nbr : Int) (t : Tour) :
    Visited nbr t = true ↔ nbr ∈ tourPfx t := by
  simp [Visited, List.any_eq_true]

theorem Feasible_iff (mat : Int → Int → Int) (city nbr : Int) (t : Tour)
    (lbest : Int) :
    Feasible mat city nbr t lbest = true ↔
      nbr ∉ tourPfx t ∧ t.cost + mat city nbr < lbest := by
  simp [Feasible]
  intro _
  rw [← Visited_iff nbr t]
  simp

/-- C5: in one worker expansion step on a popped node whose extended tour is
still incomplete, the candidate neighbors are enumerated in strictly
descending city order `n-1, …, 1`; a neighbor is pushed exactly when it is
absent from the tour's visited part and the tour's cost plus
`mat[city][nbr]` is strictly below the cached bound; the cached bound is
left untouched by the expansion and is refreshed (to the champion cost read
under the lock) only in the completed-tour branch. -/
theorem claim_C5_expansion (mat : Int → Int → Int) (n : Nat) (it : StackElt)
    (rest : List StackElt) (best : Tour) (lbest : Int) (t : Tour)
    (hext : extendTour it = some t) (hdu : n ≤ t.cities.length)
    (hbl : best.cities.length = n + 1) :
    (descCities n).Chain' (· > ·) ∧
    (∀ k : Int, k ∈ descCities n ↔ 0 < k ∧ k < (n : Int)) ∧
    (∀ nbr : Int, Feasible mat it.city nbr t lbest = true ↔
      nbr ∉ tourPfx t ∧ t.cost + mat it.city nbr < lbest) ∧
    (t.count ≠ n →
      searchBody mat n (it :: rest) best lbest =
        some ((((descCities n).filter
          (fun nbr => Feasible mat it.city nbr t lbest)).reverse.map
            (mkPushed mat n t it.city)) ++ rest, best, lbest)) ∧
    (t.count = n →
      ∃ b2, searchBody mat n (it :: rest) best lbest = some (rest, b2, best.cost)) := by
  obtain ⟨hlt, ht⟩ := extendTour_some it t hext
  have hcl : t.count ≤ t.cities.length := by
    rw [ht]
    simp
    omega
  refine ⟨descCities_sorted n, mem_descCities n,
    fun nbr => Feasible_iff mat it.city nbr t lbest, ?_, ?_⟩
  · intro hne
    have hex := expandLoop_eq mat n t it.city lbest hdu (descCities n) rest
    simp only [searchBody, Pop, hext, if_neg hne, hex]
  · intro heq
    obtain ⟨b2, hcb, _, _⟩ :=
      Check_best_tour_spec mat n it.city t best hcl (by omega) hbl
    exact ⟨b2, by simp only [searchBody, Pop, hext, if_pos heq, hcb]⟩

/-- Witness for C5: a concrete expansion step at `n = 3` from the partial
tour `[0]` extended by city `2`. -/
theorem claim_C5_expansion_witness :
    (extendTour ⟨⟨[0, -1, -1, -1], 1, 0⟩, 2, 1⟩ = some ⟨[0, 2, -1, -1], 2, 1⟩ ∧
      3 ≤ ([0, 2, -1, -1] : List Int).length ∧
      ([-1, -1, -1, -1] : List Int).length = 3 + 1) ∧
    ((descCities 3).Chain' (· > ·) ∧
    (∀ k : Int, k ∈ descCities 3 ↔ 0 < k ∧ k < (3 : Int)) ∧
    (∀ nbr : Int, Feasible (fun _ _ => 1) (2 : Int) nbr ⟨[0, 2, -1, -1], 2, 1⟩ INFINITY = true ↔
      nbr ∉ tourPfx ⟨[0, 2, -1, -1], 2, 1⟩ ∧
        (⟨[0, 2, -1, -1], 2, 1⟩ : Tour).cost + 1 < INFINITY) ∧
    ((⟨[0, 2, -1, -1], 2, 1⟩ : Tour).count ≠ 3 →
      searchBody (fun _ _ => 1) 3 [⟨⟨[0, -1, -1, -1], 1, 0⟩, 2, 1⟩]
          ⟨[-1, -1, -1, -1], 0, INFINITY⟩ INFINITY =
        some ((((descCities 3).filter
          (fun nbr => Feasible (fun _ _ => 1) (2 : Int) nbr ⟨[0, 2, -1, -1], 2, 1⟩
            INFINITY)).reverse.map
            (mkPushed (fun _ _ => 1) 3 ⟨[0, 2, -1, -1], 2, 1⟩ 2)) ++ [],
          ⟨[-1, -1, -1, -1], 0, INFINITY⟩, INFINITY)) ∧
    ((⟨[0, 2, -1, -1], 2, 1⟩ : Tour).count = 3 →
      ∃ b2, searchBody (fun _ _ => 1) 3 [⟨⟨[0, -1, -1, -1], 1, 0⟩, 2, 1⟩]
          ⟨[-1, -1, -1, -1], 0, INFINITY⟩ INFINITY =
        some ([], b2, (⟨[-1, -1, -1, -1], 0, INFINITY⟩ : Tour).cost))) :=
  ⟨⟨by decide, by decide, by decide⟩,
    claim_C5_expansion (fun _ _ => 1) 3 ⟨⟨[0, -1, -1, -1], 1, 0⟩, 2, 1⟩ []
      ⟨[-1, -1, -1, -1], 0, INFINITY⟩ INFINITY ⟨[0, 2, -1, -1], 2, 1⟩
      (by decide) (by decide) (by decide)⟩

/-! ## The concurrent search machine

The union of all worker stacks forms the frontier; one machine step pops an
arbitrary frontier node (any worker, any interleaving) and runs the loop
body on it with an arbitrary stale bound `b ≥` the current champion cost —
every value a worker's `l_best_tour` can hold is of that form, because it
was read from the champion earlier and the champion cost never increases.
Donation (`Terminated`/`Split_stack`) only moves nodes between stacks, so it
leaves the frontier unchanged at this level of abstraction. -/

structure MState where
  frontier : List StackElt
  best : Tour
deriving Repr, DecidableEq

/-- One machine step: some worker pops a node `it` from its stack and runs
the loop body with a cached bound `b` no smaller than the current champion
cost. -/
def Step (mat : Int → Int → Int) (n : Nat) (s s2 : MState) : Prop :=
  ∃ pre it post b r,
    s.frontier = pre ++ it :: post ∧
    s.best.cost ≤ b ∧
    stepItem mat n it b s.best = some r ∧
    s2 = ⟨r.1 ++ pre ++ post, r.2⟩

def Reachable (mat : Int → Int → Int) (n : Nat) : MState → MState → Prop :=
  Relation.ReflTransGen (Step mat n)

/-- The champion as `main` initializes it: `Initialize_tour(&best_tour);
best_tour.cost = INFINITY`. -/
def initBest (n : Nat) : Tour :=
  ⟨(Initialize_tour n).cities, (Initialize_tour n).count, INFINITY⟩

/-- The machine's start state: every rank's seed nodes, and the sentinel
champion. -/
def initState (mat : Int → Int → Int) (n T : Nat) : MState :=
  ⟨(List.range T).flatMap (fun r => seedItems mat n T r), initBest n⟩

/-- Cost of walking a city sequence: the sum of `mat` over consecutive
pairs. -/
def pathCost (mat : Int → Int → Int) : List Int → Int
  | [] => 0
  | [_] => 0
  | a :: b :: rest => mat a b + pathCost mat (b :: rest)

/-- Well-formedness of the cost matrix as the program's header demands it:
zero diagonal and positive off-diagonal costs for cities `0 .. n-1`. -/
def WellFormedMat (mat : Int → Int → Int) (n : Nat) : Prop :=
  (∀ i : Int, 0 ≤ i → i < (n : Int) → mat i i = 0) ∧
  (∀ i j : Int, 0 ≤ i → i < (n : Int) → 0 ≤ j → j < (n : Int) → i ≠ j → 0 < mat i j)

/-- The non-home cities `1 .. n-1` in ascending order. -/
def ascCities (n : Nat) : List Int :=
  (List.range' 1 (n - 1)).map (fun (k : Nat) => (k : Int))

/-- Cost of the Hamiltonian cycle that visits `0 :: p` in order and returns
home. -/
def tourCost (mat : Int → Int → Int) (p : List Int) : Int :=
  pathCost mat (0 :: p) + mat ((0 :: p).getLast (List.cons_ne_nil 0 p)) 0

/-- All ways to insert a city into a sequence. -/
def insertions (a : Int) : List Int → List (List Int)
  | [] => [[a]]
  | b :: l => (a :: b :: l) :: (insertions a l).map (fun m => b :: m)

/-- All orderings of a list of cities (structurally recursive, so that it
evaluates inside the kernel). -/
def permsOf : List Int → List (List Int)
  | [] => [[]]
  | a :: l => (permsOf l).flatMap (insertions a)

/-- The true minimum cycle cost: minimum of `tourCost` over all orderings of
the non-home cities. -/
def minTourCost (mat : Int → Int → Int) (n : Nat) : Option Int :=
  ((permsOf (ascCities n)).map (tourCost mat)).min?

/-! ### Structural invariants of the machine -/

/-- The tour-validity invariant of claim C6 plus the capacity bookkeeping of
claim C9: the visited part starts at home, has no repeats, stays in city
range, its recorded cost is the sum of the traversed edges, and the backing
array holds at least `n` slots while the count stays below `n`. -/
def TourOK (mat : Int → Int → Int) (n : Nat) (t : Tour) : Prop :=
  1 ≤ t.count ∧ t.count + 1 ≤ n ∧ n ≤ t.cities.length ∧
  (tourPfx t).head? = some 0 ∧ (tourPfx t).Nodup ∧
  (∀ c ∈ tourPfx t, 0 ≤ c ∧ c < (n : Int)) ∧
  t.cost = pathCost mat (tourPfx t)

/-- Invariant of a frontier node: a valid partial tour, an in-range
candidate city not yet visited, and the correct edge cost from the tour's
last city to the candidate. -/
def ItemOK (mat : Int → Int → Int) (n : Nat) (it : StackElt) : Prop :=
  TourOK mat n it.tour ∧ 0 < it.city ∧ it.city < (n : Int) ∧
  it.city ∉ tourPfx it.tour ∧
  it.cost = mat ((tourPfx it.tour).getLastD 0) it.city

/-- Invariant of the champion: full capacity array, cost at most the
sentinel, and the cost is either still the sentinel or the closing cost of
an actual ordering of the non-home cities. -/
def BestOK (mat : Int → Int → Int) (n : Nat) (b : Tour) : Prop :=
  b.cities.length = n + 1 ∧ b.cost ≤ INFINITY ∧
  (b.cost = INFINITY ∨ ∃ p, p.Perm (ascCities n) ∧ b.cost = tourCost mat p)

def Inv (mat : Int → Int → Int) (n : Nat) (s : MState) : Prop :=
  (∀ it ∈ s.frontier, ItemOK mat n it) ∧ BestOK mat n s.best

theorem pathCost_concat (mat : Int → Int → Int) :
    ∀ (xs : List Int) (y : Int), xs ≠ [] →
    pathCost mat (xs ++ [y]) = pathCost mat xs + mat (xs.getLastD 0) y
  | [], y, h => absurd rfl h
  | [a], y, _ => by simp [pathCost, List.getLastD]
  | a :: b :: rest, y, _ => by
    have ih := pathCost_concat mat (b :: rest) y (by simp)
    simp only [List.cons_append] at ih ⊢
    rw [show pathCost mat (a :: b :: (rest ++ [y])) =
        mat a b + pathCost mat (b :: (rest ++ [y])) from rfl,
      show pathCost mat (a :: b :: rest) = mat a b + pathCost mat (b :: rest) from rfl]
    rw [ih]
    simp only [List.getLastD_cons]
    ring

theorem take_set_succ : ∀ (l : List Int) (i : Nat) (v : Int), i < l.length →
    (l.set i v).take (i + 1) = l.take i ++ [v]
  | [], i, v, h => by simp at h
  | a :: l, 0, v, _ => by simp
  | a :: l, i + 1, v, h => by
    simp only [List.set, List.take, List.cons_append]
    rw [take_set_succ l i v (by simpa using h)]

theorem tourPfx_length (t : Tour) (h : t.count ≤ t.cities.length) :
    (tourPfx t).length = t.count := by
  simp [tourPfx]
  omega

theorem mem_ascCities (n : Nat) : ∀ k : Int, k ∈ ascCities n ↔ 0 < k ∧ k < (n : Int) := by
  intro k
  unfold ascCities
  rw [List.mem_map]
  constructor
  · rintro ⟨m, hm, rfl⟩
    rw [List.mem_range'_1] at hm
    omega
  · intro hk
    refine ⟨k.toNat, ?_, by omega⟩
    rw [List.mem_range'_1]
    omega

theorem ascCities_nodup (n : Nat) : (ascCities n).Nodup := by
  unfold ascCities
  apply List.Nodup.map
  · intro a b hab
    exact Nat.cast_injective (by simpa using hab)
  · exact ((List.pairwise_lt_range' 1 (n - 1)).imp (by intro a b h; omega))

theorem ascCities_length (n : Nat) : (ascCities n).length = n - 1 := by
  simp [ascCities]

/-- A duplicate-free list of the cities `1 .. n-1` of full length is a
permutation of `ascCities n`. -/
theorem perm_ascCities (n : Nat) (p : List Int) (hnd : p.Nodup)
    (hlen : p.length = n - 1) (hmem : ∀ c ∈ p, 0 < c ∧ c < (n : Int)) :
    p.Perm (ascCities n) := by
  apply List.perm_of_nodup_nodup_toFinset_eq hnd (ascCities_nodup n)
  apply Finset.eq_of_subset_of_card_le
  · intro c hc
    rw [List.mem_toFinset] at hc ⊢
    rw [mem_ascCities]
    exact hmem c hc
  · rw [List.toFinset_card_of_nodup hnd, List.toFinset_card_of_nodup (ascCities_nodup n),
      hlen, ascCities_length]

/-- All the facts about the in-place extension of a popped node's tour. -/
theorem TourOK_extend (mat : Int → Int → Int) (n : Nat) (it : StackElt) (t : Tour)
    (hok : ItemOK mat n it) (hext : extendTour it = some t) :
    tourPfx t = tourPfx it.tour ++ [it.city] ∧
    t.count = it.tour.count + 1 ∧ t.count ≤ n ∧ n ≤ t.cities.length ∧
    t.count ≤ t.cities.length ∧
    (tourPfx t).head? = some 0 ∧ (tourPfx t).Nodup ∧
    (∀ c ∈ tourPfx t, 0 ≤ c ∧ c < (n : Int)) ∧
    t.cost = pathCost mat (tourPfx t) ∧
    (tourPfx t).getLastD 0 = it.city ∧
    (tourPfx t).length = t.count := by
  obtain ⟨⟨hc1, hc2, hc3, hhd, hnd, hrange, hcost⟩, hcity0, hcityn, hnotmem, hedge⟩ := hok
  obtain ⟨hlt, ht⟩ := extendTour_some it t hext
  have hpfxlen : (tourPfx it.tour).length = it.tour.count :=
    tourPfx_length it.tour (by omega)
  have hne : tourPfx it.tour ≠ [] := by
    intro hnil
    rw [hnil] at hpfxlen
    simp at hpfxlen
    omega
  have hpfx : tourPfx t = tourPfx it.tour ++ [it.city] := by
    rw [ht]
    show (it.tour.cities.set it.tour.count it.city).take (it.tour.count + 1) = _
    exact take_set_succ _ _ _ hlt
  have hlen : t.cities.length = it.tour.cities.length := by
    rw [ht]
    simp
  have hcount2 : t.count = it.tour.count + 1 := by rw [ht]
  refine ⟨hpfx, hcount2, by omega, by omega, by omega, ?_, ?_, ?_, ?_, ?_, ?_⟩
  · rw [hpfx]
    obtain ⟨x0, xs, hxs⟩ : ∃ x0 xs, tourPfx it.tour = x0 :: xs := by
      cases hx : tourPfx it.tour with
      | nil => exact absurd hx hne
      | cons y ys => exact ⟨y, ys, rfl⟩
    rw [hxs] at hhd ⊢
    simpa using hhd
  · rw [hpfx, List.nodup_append]
    exact ⟨hnd, List.nodup_singleton _, by
      intro a ha hb
      simp at hb
      rw [hb] at ha
      exact hnotmem ha⟩
  · rw [hpfx]
    intro c hc
    rcases List.mem_append.mp hc with hc | hc
    · exact hrange c hc
    · simp at hc
      rw [hc]
      constructor <;> omega
  · rw [hpfx, pathCost_concat mat _ it.city hne, ← hcost, ← hedge, ht]
  · rw [hpfx, List.getLastD_concat]
  · rw [hpfx]
    simp
    rw [hpfxlen, ht]

/-- Invariant preservation of a single loop-body application, together with
the champion-cost monotonicity it guarantees. -/
theorem stepItem_preserves (mat : Int → Int → Int) (n : Nat) (it : StackElt)
    (b : Int) (best : Tour) (r : List StackElt × Tour)
    (hok : ItemOK mat n it) (hbest : BestOK mat n best)
    (hstep : stepItem mat n it b best = some r) :
    (∀ x ∈ r.1, ItemOK mat n x) ∧ BestOK mat n r.2 ∧ r.2.cost ≤ best.cost := by
  obtain ⟨hblen, hble, hbor⟩ := hbest
  cases het : extendTour it with
  | none =>
    simp only [stepItem, het] at hstep
    exact Option.noConfusion hstep
  | some t =>
    simp only [stepItem, het] at hstep
    obtain ⟨hpfx, hcnt, hcle, hnle, hccl, hhd, hnd, hrange, hcost, hlast, hplen⟩ :=
      TourOK_extend mat n it t hok het
    by_cases hcn : t.count = n
    · rw [if_pos hcn] at hstep
      by_cases hlt : t.cost + mat it.city 0 < best.cost
      · rw [Check_best_tour_update mat n it.city t best hlt (by omega) (by omega)
          (by omega)] at hstep
        injection hstep with hr
        subst hr
        obtain ⟨p, hp⟩ : ∃ p, tourPfx t = 0 :: p := by
          cases hx : tourPfx t with
          | nil => rw [hx] at hhd; simp at hhd
          | cons y ys =>
            rw [hx] at hhd
            simp at hhd
            exact ⟨ys, by rw [hhd]⟩
        have hclose : t.cost + mat it.city 0 = tourCost mat p := by
          rw [tourCost, show ((0 : Int) :: p).getLast (List.cons_ne_nil 0 p) =
            ((0 : Int) :: p).getLastD 0 from rfl, ← hp, hlast, hcost]
        refine ⟨by simp, ⟨?_, show t.cost + mat it.city 0 ≤ INFINITY from by omega,
          Or.inr ⟨p, ?_, by simpa using hclose⟩⟩,
          show t.cost + mat it.city 0 ≤ best.cost from by omega⟩
        · simp [List.length_take, List.length_drop]
          omega
        · apply perm_ascCities
          · have := hnd
            rw [hp] at this
            exact this.of_cons
          · have := hplen
            rw [hp] at this
            simp at this
            omega
          · intro c hc
            have hcmem : c ∈ tourPfx t := by
              rw [hp]
              exact List.mem_cons_of_mem 0 hc
            refine ⟨?_, (hrange c hcmem).2⟩
            have h0 : (0 : Int) ∉ p := by
              have := hnd
              rw [hp] at this
              exact (List.nodup_cons.mp this).1
            have hge := (hrange c hcmem).1
            rcases eq_or_lt_of_le hge with h | h
            · exfalso
              apply h0
              rwa [← h] at hc
            · exact h
      · rw [Check_best_tour_not_better mat n it.city t best hlt] at hstep
        injection hstep with hr
        subst hr
        exact ⟨by simp, ⟨hblen, hble, hbor⟩, le_refl _⟩
    · rw [if_neg hcn] at hstep
      rw [expandLoop_eq mat n t it.city b hnle (descCities n) []] at hstep
      injection hstep with hr
      subst hr
      refine ⟨?_, ⟨hblen, hble, hbor⟩, le_refl _⟩
      intro x hx
      simp only [List.append_nil, List.mem_map, List.mem_reverse, List.mem_filter] at hx
      obtain ⟨nbr, ⟨hnd2, hfe⟩, rfl⟩ := hx
      obtain ⟨hnvis, hcb⟩ := (Feasible_iff mat it.city nbr t b).mp hfe
      obtain ⟨hn0, hnn⟩ := (mem_descCities n nbr).mp hnd2
      have hdpfx : tourPfx (mkPushed mat n t it.city nbr).tour = tourPfx t := by
        show (t.cities.take n).take t.count = _
        rw [List.take_take]
        congr 1
        omega
      refine ⟨⟨?_, ?_, ?_, ?_, ?_, ?_, ?_⟩, hn0, hnn, ?_, ?_⟩
      · show 1 ≤ t.count
        omega
      · show t.count + 1 ≤ n
        omega
      · show n ≤ (t.cities.take n).length
        simp
        omega
      · rw [hdpfx]
        exact hhd
      · rw [hdpfx]
        exact hnd
      · rw [hdpfx]
        exact hrange
      · show t.cost = pathCost mat _
        rw [hdpfx]
        exact hcost
      · rw [hdpfx]
        exact hnvis
      · show mat it.city nbr = mat _ nbr
        rw [hdpfx, hlast]

theorem seedTour_pfx (n : Nat) : tourPfx (seedTour n) = [0] := by
  have hrep : (Initialize_tour n).cities = NO_CITY :: List.replicate n NO_CITY := by
    simp [Initialize_tour, List.replicate_succ]
  simp [tourPfx, seedTour, hrep, List.set]

theorem seedTour_len (n : Nat) : (seedTour n).cities.length = n + 1 := by
  simp [seedTour, Initialize_tour]

theorem Inv_step (mat : Int → Int → Int) (n : Nat) (s s2 : MState)
    (hinv : Inv mat n s) (hstep : Step mat n s s2) :
    Inv mat n s2 ∧ s2.best.cost ≤ s.best.cost := by
  obtain ⟨hitems, hbest⟩ := hinv
  obtain ⟨pre, it, post, b, r, hfr, hb, hsi, rfl⟩ := hstep
  have hok : ItemOK mat n it := hitems it (by
    rw [hfr]
    exact List.mem_append_right _ (List.mem_cons_self _ _))
  obtain ⟨hpush, hbok, hmono⟩ := stepItem_preserves mat n it b s.best r hok hbest hsi
  refine ⟨⟨?_, hbok⟩, hmono⟩
  intro x hx
  simp only [List.mem_append] at hx
  rcases hx with (hx | hx) | hx
  · exact hpush x hx
  · exact hitems x (by rw [hfr]; exact List.mem_append_left _ hx)
  · exact hitems x (by
      rw [hfr]
      exact List.mem_append_right _ (List.mem_cons_of_mem _ hx))

theorem Inv_reachable (mat : Int → Int → Int) (n : Nat) (s s2 : MState)
    (hinv : Inv mat n s) (hreach : Reachable mat n s s2) :
    Inv mat n s2 ∧ s2.best.cost ≤ s.best.cost := by
  induction hreach with
  | refl => exact ⟨hinv, le_refl _⟩
  | tail hr hstep ih =>
    obtain ⟨hinv2, hle⟩ := ih
    obtain ⟨hinv3, hle2⟩ := Inv_step mat n _ _ hinv2 hstep
    exact ⟨hinv3, le_trans hle2 hle⟩

theorem seedItem_bounds (n T r c : Nat) (hn : 1 ≤ n) (hT : 1 ≤ T) (hr : r < T)
    (hc : c ∈ seedCities n T r) : 1 ≤ c ∧ c < n := by
  rw [seedCities, List.mem_range'_1] at hc
  have hub : firstFinalCity n T r + partTourCount n T r ≤ n := by
    rw [← firstFinalCity_succ]
    calc firstFinalCity n T (r + 1) ≤ firstFinalCity n T T :=
          firstFinalCity_mono n T _ _ (by omega)
      _ = n := firstFinalCity_last n T hn hT
  have hlb : 1 ≤ firstFinalCity n T r := by
    have h0 := firstFinalCity_zero n T
    have := firstFinalCity_mono n T 0 r (by omega)
    omega
  omega

theorem initState_Inv (mat : Int → Int → Int) (n T : Nat) (hn : 1 ≤ n)
    (hT : 1 ≤ T) : Inv mat n (initState mat n T) := by
  constructor
  · intro it hit
    simp only [initState, List.mem_flatMap, List.mem_range] at hit
    obtain ⟨r, hr, hit⟩ := hit
    unfold seedItems at hit
    obtain ⟨c, hc, rfl⟩ := List.mem_map.mp hit
    obtain ⟨hc1, hc2⟩ := seedItem_bounds n T r c hn hT hr hc
    have hn2 : 2 ≤ n := by omega
    have hpfx := seedTour_pfx n
    refine ⟨⟨?_, ?_, ?_, ?_, ?_, ?_, ?_⟩, ?_, ?_, ?_, ?_⟩
    · exact le_refl 1
    · show 1 + 1 ≤ n
      omega
    · rw [seedTour_len]
      omega
    · rw [hpfx]
      rfl
    · rw [hpfx]
      exact List.nodup_singleton 0
    · rw [hpfx]
      intro x hx
      simp at hx
      rw [hx]
      constructor <;> omega
    · rw [hpfx]
      rfl
    · show (0 : Int) < (c : Int)
      omega
    · show ((c : Nat) : Int) < (n : Int)
      omega
    · show (c : Int) ∉ tourPfx (seedTour n)
      rw [hpfx]
      intro hmem
      rw [List.mem_singleton] at hmem
      omega
    · rw [hpfx]
      rfl
  · refine ⟨by simp [initState, initBest, Initialize_tour], le_refl _, Or.inl rfl⟩

/-- C6: in every machine state reachable from the seeded start state, every
frontier node's tour starts at the home city, repeats no city, and carries a
cost equal to the sum of the edge costs actually traversed; moreover the
node's candidate city never already appears in its tour's visited part (the
push-feasibility invariant). -/
theorem claim_C6_frontier_invariant (mat : Int → Int → Int) (n T : Nat)
    (hn : 1 ≤ n) (hT : 1 ≤ T) (s : MState)
    (hreach : Reachable mat n (initState mat n T) s) :
    ∀ it ∈ s.frontier,
      (tourPfx it.tour).head? = some 0 ∧
      (tourPfx it.tour).Nodup ∧
      it.tour.cost = pathCost mat (tourPfx it.tour) ∧
      it.city ∉ tourPfx it.tour := by
  have hinv := (Inv_reachable mat n _ s (initState_Inv mat n T hn hT) hreach).1
  intro it hit
  obtain ⟨⟨_, _, _, hhd, hnd, _, hcost⟩, _, _, hnm, _⟩ := hinv.1 it hit
  exact ⟨hhd, hnd, hcost, hnm⟩

/-- Witness for C6 at the start state itself for `n = 2`, `T = 1`. -/
theorem claim_C6_frontier_invariant_witness :
    (1 ≤ 2 ∧ 1 ≤ 1) ∧
    ∀ it ∈ (initState (fun _ _ => 1) 2 1).frontier,
      (tourPfx it.tour).head? = some 0 ∧
      (tourPfx it.tour).Nodup ∧
      it.tour.cost = pathCost (fun _ _ => 1) (tourPfx it.tour) ∧
      it.city ∉ tourPfx it.tour :=
  ⟨⟨by omega, by omega⟩,
    claim_C6_frontier_invariant (fun _ _ => 1) 2 1 (by omega) (by omega)
      (initState (fun _ _ => 1) 2 1) Relation.ReflTransGen.refl⟩

theorem stepItem_progress (mat : Int → Int → Int) (n : Nat) (it : StackElt)
    (b : Int) (best : Tour) (hok : ItemOK mat n it) (hbest : BestOK mat n best) :
    ∃ r, stepItem mat n it b best = some r := by
  have hlt : it.tour.count < it.tour.cities.length := by
    obtain ⟨⟨h1, h2, h3, _⟩, _⟩ := hok
    omega
  have het : extendTour it = some ⟨it.tour.cities.set it.tour.count it.city,
      it.tour.count + 1, it.tour.cost + it.cost⟩ := by
    unfold extendTour setAt
    rw [if_pos hlt]
    rfl
  obtain ⟨hpfx, hcnt, hcle, hnle, hccl, hhd, hnd, hrange, hcost, hlast, hplen⟩ :=
    TourOK_extend mat n it _ hok het
  by_cases hcn : (it.tour.count + 1) = n
  · obtain ⟨b2, hcb, _, _⟩ := Check_best_tour_spec mat n it.city
      ⟨it.tour.cities.set it.tour.count it.city, it.tour.count + 1,
        it.tour.cost + it.cost⟩ best (by simpa using hccl) (by omega) hbest.1
    refine ⟨([], b2), ?_⟩
    simp only [stepItem, het, if_pos hcn, hcb]
  · have hex := expandLoop_eq mat n
      ⟨it.tour.cities.set it.tour.count it.city, it.tour.count + 1,
        it.tour.cost + it.cost⟩ it.city b (by simpa using hnle) (descCities n) []
    refine ⟨((((descCities n).filter (fun nbr => Feasible mat it.city nbr
      ⟨it.tour.cities.set it.tour.count it.city, it.tour.count + 1,
        it.tour.cost + it.cost⟩ b)).reverse.map
      (mkPushed mat n ⟨it.tour.cities.set it.tour.count it.city, it.tour.count + 1,
        it.tour.cost + it.cost⟩ it.city)) ++ [], best), ?_⟩
    simp only [stepItem, het, if_neg hcn, hex]

/-- C9: in every reachable machine state, running the loop body on any
frontier node with any cached bound never hits an out-of-bounds array
access: the in-place extension write, the `Dup_tour` copy of `n` entries
inside every push, and the champion copy in `Check_best_tour` all succeed,
so the `Option`-valued step always returns `some`. -/
theorem claim_C9_in_bounds (mat : Int → Int → Int) (n T : Nat)
    (hn : 1 ≤ n) (hT : 1 ≤ T) (s : MState)
    (hreach : Reachable mat n (initState mat n T) s) :
    ∀ it ∈ s.frontier, ∀ b : Int, ∃ r, stepItem mat n it b s.best = some r := by
  have hinv := (Inv_reachable mat n _ s (initState_Inv mat n T hn hT) hreach).1
  intro it hit b
  exact stepItem_progress mat n it b s.best (hinv.1 it hit) hinv.2

/-- Witness for C9 at the start state for `n = 2`, `T = 1`. -/
theorem claim_C9_in_bounds_witness :
    (1 ≤ 2 ∧ 1 ≤ 1) ∧
    ∀ it ∈ (initState (fun _ _ => 1) 2 1).frontier, ∀ b : Int,
      ∃ r, stepItem (fun _ _ => 1) 2 it b (initState (fun _ _ => 1) 2 1).best = some r :=
  ⟨⟨by omega, by omega⟩,
    claim_C9_in_bounds (fun _ _ => 1) 2 1 (by omega) (by omega)
      (initState (fun _ _ => 1) 2 1) Relation.ReflTransGen.refl⟩

/-! ## Optimality of the search (claim C1) -/

theorem insertions_perm (a : Int) : ∀ (l q : List Int),
    q ∈ insertions a l → q.Perm (a :: l)
  | [], q, hq => by
    simp [insertions] at hq
    rw [hq]
  | b :: l, q, hq => by
    rw [insertions, List.mem_cons] at hq
    rcases hq with rfl | hq
    · exact List.Perm.refl _
    · obtain ⟨m, hm, rfl⟩ := List.mem_map.mp hq
      exact ((insertions_perm a l m hm).cons b).trans (List.Perm.swap a b l)

theorem mem_insertions (a : Int) : ∀ (q1 q2 : List Int),
    q1 ++ a :: q2 ∈ insertions a (q1 ++ q2)
  | [], q2 => by
    cases q2 with
    | nil => simp [insertions]
    | cons b l =>
      show a :: b :: l ∈ (a :: b :: l) :: (insertions a l).map (fun m => b :: m)
      exact List.mem_cons_self _ _
  | b :: q1, q2 => by
    have hih := mem_insertions a q1 q2
    show b :: (q1 ++ a :: q2) ∈
      (a :: b :: (q1 ++ q2)) :: (insertions a (q1 ++ q2)).map (fun m => b :: m)
    exact List.mem_cons_of_mem _ (List.mem_map_of_mem _ hih)

theorem permsOf_sound : ∀ (l q : List Int), q ∈ permsOf l → q.Perm l
  | [], q, hq => by
    simp [permsOf] at hq
    rw [hq]
  | a :: l, q, hq => by
    rw [permsOf, List.mem_flatMap] at hq
    obtain ⟨m, hm, hq⟩ := hq
    exact (insertions_perm a m q hq).trans ((permsOf_sound l m hm).cons a)

theorem permsOf_complete : ∀ (l q : List Int), q.Perm l → q ∈ permsOf l
  | [], q, hq => by
    rw [List.perm_nil] at hq
    rw [hq]
    simp [permsOf]
  | a :: l, q, hq => by
    have ha : a ∈ q := hq.mem_iff.mpr (List.mem_cons_self a l)
    obtain ⟨q1, q2, rfl⟩ := List.append_of_mem ha
    have hmid : (q1 ++ a :: q2).Perm (a :: (q1 ++ q2)) := List.perm_middle
    have hm : (q1 ++ q2).Perm l := (hmid.symm.trans hq).cons_inv
    rw [permsOf, List.mem_flatMap]
    exact ⟨q1 ++ q2, permsOf_complete l (q1 ++ q2) hm, mem_insertions a q1 q2⟩

theorem min?_spec (l : List Int) (m : Int) (h : l.min? = some m) :
    m ∈ l ∧ ∀ x ∈ l, m ≤ x := by
  cases l with
  | nil => exact Option.noConfusion h
  | cons a l =>
    rw [show (a :: l).min? = some (l.foldl min a) from rfl] at h
    injection h with h
    obtain ⟨h1, h2, h3⟩ := foldl_min_spec l a
    subst h
    constructor
    · rcases h3 with h3 | h3
      · rw [h3]
        exact List.mem_cons_self a l
      · exact List.mem_cons_of_mem a h3
    · intro x hx
      rcases List.mem_cons.mp hx with rfl | hx
      · exact h1
      · exact h2 x hx

theorem getD_mem_of_lt : ∀ (l : List Int) (k : Nat), k < l.length → l.getD k 0 ∈ l
  | [], k, h => by simp at h
  | a :: l, 0, _ => by simp
  | a :: l, k + 1, h => by
    rw [List.getD_cons_succ]
    exact List.mem_cons_of_mem a (getD_mem_of_lt l k (by simpa using h))

theorem take_succ_concat : ∀ (l : List Int) (k : Nat), k < l.length →
    l.take (k + 1) = l.take k ++ [l.getD k 0]
  | [], k, h => by simp at h
  | a :: l, 0, _ => by simp
  | a :: l, k + 1, h => by
    rw [List.getD_cons_succ,
      show (a :: l).take (k + 1 + 1) = a :: l.take (k + 1) from rfl,
      show (a :: l).take (k + 1) = a :: l.take k from rfl,
      take_succ_concat l k (by simpa using h)]
    rfl

theorem getD_not_mem_take : ∀ (l : List Int) (k : Nat), l.Nodup → k < l.length →
    l.getD k 0 ∉ l.take k
  | [], k, _, h => by simp at h
  | a :: l, 0, _, _ => by simp
  | a :: l, k + 1, hnd, h => by
    rw [List.getD_cons_succ, show (a :: l).take (k + 1) = a :: l.take k from rfl]
    intro hmem
    rcases List.mem_cons.mp hmem with heq | hmem
    · exact (List.nodup_cons.mp hnd).1 (heq ▸ getD_mem_of_lt l k (by simpa using h))
    · exact getD_not_mem_take l k (List.nodup_cons.mp hnd).2 (by simpa using h) hmem

theorem getLastD_mem : ∀ (l : List Int), l ≠ [] → l.getLastD 0 ∈ l
  | [a], _ => by simp [List.getLastD]
  | a :: b :: rest, _ => by
    rw [List.getLastD_cons]
    exact List.mem_cons_of_mem a (getLastD_mem (b :: rest) (by simp))

/-- Between any two cities in range the cost is non-negative: zero on the
diagonal, positive off it. -/
theorem mat_nonneg (mat : Int → Int → Int) (n : Nat) (hwf : WellFormedMat mat n)
    (x y : Int) (hx : 0 ≤ x ∧ x < (n : Int)) (hy : 0 ≤ y ∧ y < (n : Int)) :
    0 ≤ mat x y := by
  by_cases hxy : x = y
  · rw [hxy, hwf.1 y hy.1 hy.2]
  · exact le_of_lt (hwf.2 x y hx.1 hx.2 hy.1 hy.2 hxy)

/-- The cost of a prefix of an in-range walk never exceeds the cost of the
whole walk. -/
theorem pathCost_take_le (mat : Int → Int → Int) (n : Nat)
    (hwf : WellFormedMat mat n) (l : List Int)
    (hr : ∀ c ∈ l, 0 ≤ c ∧ c < (n : Int)) :
    ∀ m, 1 ≤ m → m ≤ l.length → pathCost mat (l.take m) ≤ pathCost mat l := by
  have key : ∀ d m, 1 ≤ m → m + d = l.length →
      pathCost mat (l.take m) ≤ pathCost mat l := by
    intro d
    induction d with
    | zero =>
      intro m _ hm
      rw [show m = l.length from by omega, List.take_length]
    | succ d ih =>
      intro m h1 hm
      have hne : l.take m ≠ [] := by
        intro hnil
        have hlen2 : (l.take m).length = min m l.length := List.length_take _ _
        rw [hnil] at hlen2
        simp only [List.length_nil] at hlen2
        omega
      have hstep : pathCost mat (l.take m) ≤ pathCost mat (l.take (m + 1)) := by
        rw [take_succ_concat l m (by omega),
          pathCost_concat mat (l.take m) (l.getD m 0) hne]
        have hnn : 0 ≤ mat ((l.take m).getLastD 0) (l.getD m 0) := by
          apply mat_nonneg mat n hwf
          · exact hr _ (List.mem_of_mem_take (getLastD_mem (l.take m) hne))
          · exact hr _ (getD_mem_of_lt l m (by omega))
        omega
      exact le_trans hstep (ih (m + 1) (by omega) (by omega))
  intro m h1 hm
  exact key (l.length - m) m h1 (by omega)

/-- The cycle's elements are all in range. -/
theorem cycle_range (n : Nat) (p : List Int) (hperm : p.Perm (ascCities n))
    (hn : 1 ≤ n) : ∀ c ∈ (0 : Int) :: p, 0 ≤ c ∧ c < (n : Int) := by
  intro c hc
  rcases List.mem_cons.mp hc with rfl | hc
  · constructor <;> omega
  · have := (mem_ascCities n c).mp (hperm.mem_iff.mp hc)
    omega

theorem cycle_nodup (n : Nat) (p : List Int) (hperm : p.Perm (ascCities n)) :
    ((0 : Int) :: p).Nodup := by
  rw [List.nodup_cons]
  refine ⟨?_, hperm.nodup_iff.mpr (ascCities_nodup n)⟩
  intro h0
  have := (mem_ascCities n 0).mp (hperm.mem_iff.mp h0)
  omega

theorem cycle_length (n : Nat) (p : List Int) (hperm : p.Perm (ascCities n))
    (hn : 1 ≤ n) : ((0 : Int) :: p).length = n := by
  have := hperm.length_eq
  rw [ascCities_length] at this
  simp [this]
  omega

/-- Any prefix cost of the optimal cycle is at most the full cycle cost. -/
theorem prefixCost_le_tourCost (mat : Int → Int → Int) (n : Nat)
    (hwf : WellFormedMat mat n) (p : List Int) (hperm : p.Perm (ascCities n))
    (hn : 1 ≤ n) (m : Nat) (h1 : 1 ≤ m) (hm : m ≤ n) :
    pathCost mat (((0 : Int) :: p).take m) ≤ tourCost mat p := by
  have hlen := cycle_length n p hperm hn
  have hpref : pathCost mat (((0 : Int) :: p).take m) ≤ pathCost mat ((0 : Int) :: p) :=
    pathCost_take_le mat n hwf _ (cycle_range n p hperm hn) m h1 (by omega)
  have hclose : 0 ≤ mat (((0 : Int) :: p).getLast (List.cons_ne_nil 0 p)) 0 := by
    apply mat_nonneg mat n hwf
    · exact cycle_range n p hperm hn _ (List.getLast_mem _)
    · constructor <;> omega
  rw [tourCost]
  omega

/-- The popped-or-pending representative of the cycle `0 :: p`: a frontier
node whose tour is exactly the first `k` cities of the cycle and whose
candidate is the next one. -/
def RepOK (mat : Int → Int → Int) (n : Nat) (p : List Int) (it : StackElt) : Prop :=
  ∃ k, 1 ≤ k ∧ k + 1 ≤ n ∧ it.tour.count = k ∧
    tourPfx it.tour = (((0 : Int) :: p)).take k ∧
    it.city = ((0 : Int) :: p).getD k 0 ∧
    it.cost = mat (((0 : Int) :: p).getD (k - 1) 0) (((0 : Int) :: p).getD k 0)

/-- Completeness invariant for a fixed candidate cycle: either the champion
is already at least as good as that cycle, or a representative of one of its
prefixes is still pending in the frontier. -/
def InvC (mat : Int → Int → Int) (n : Nat) (p : List Int) (s : MState) : Prop :=
  s.best.cost ≤ tourCost mat p ∨ ∃ it ∈ s.frontier, RepOK mat n p it

theorem InvC_step (mat : Int → Int → Int) (n : Nat) (p : List Int)
    (hwf : WellFormedMat mat n) (hperm : p.Perm (ascCities n)) (hn : 2 ≤ n)
    (s s2 : MState) (hinv : Inv mat n s) (hc : InvC mat n p s)
    (hstep : Step mat n s s2) : InvC mat n p s2 := by
  obtain ⟨pre, it, post, b, r, hfr, hb, hsi, rfl⟩ := hstep
  have hok : ItemOK mat n it := hinv.1 it (by
    rw [hfr]
    exact List.mem_append_right _ (List.mem_cons_self _ _))
  obtain ⟨-, -, hmono⟩ := stepItem_preserves mat n it b s.best r hok hinv.2 hsi
  rcases hc with hle | ⟨rep, hrepmem, hrep⟩
  · exact Or.inl (le_trans hmono hle)
  · rw [hfr] at hrepmem
    rcases List.mem_append.mp hrepmem with hpre | hrest
    · refine Or.inr ⟨rep, ?_, hrep⟩
      show rep ∈ r.1 ++ pre ++ post
      exact List.mem_append_left _ (List.mem_append_right _ hpre)
    · rcases List.mem_cons.mp hrest with heq | hpost
      · subst heq
        obtain ⟨k, hk1, hk2, hkcount, hkpfx, hkcity, hkcost⟩ := hrep
        cases het : extendTour rep with
        | none =>
          simp only [stepItem, het] at hsi
          exact Option.noConfusion hsi
        | some t =>
          simp only [stepItem, het] at hsi
          obtain ⟨hpfx, hcnt, hcle, hnle, hccl, hhd, hnd, hrange, hcost, hlast, hplen⟩ :=
            TourOK_extend mat n rep t hok het
          have hclen := cycle_length n p hperm (by omega)
          have hkc : k < ((0 : Int) :: p).length := by omega
          have hpfxT : tourPfx t = ((0 : Int) :: p).take (k + 1) := by
            rw [hpfx, hkpfx, hkcity, ← take_succ_concat _ k hkc]
          have htcount : t.count = k + 1 := by rw [hcnt, hkcount]
          by_cases hcn : t.count = n
          · rw [if_pos hcn] at hsi
            have hfull : tourPfx t = (0 : Int) :: p := by
              rw [hpfxT, List.take_of_length_le (by omega)]
            have hclose : t.cost + mat rep.city 0 = tourCost mat p := by
              rw [hcost, hfull, tourCost]
              congr 2
              rw [← hlast, hfull]
              rfl
            obtain ⟨b2, hcbeq, hcbcost, _⟩ :=
              Check_best_tour_spec mat n rep.city t s.best hccl (by omega) hinv.2.1
            rw [hcbeq] at hsi
            injection hsi with hsi
            subst hsi
            left
            show b2.cost ≤ _
            rw [hcbcost, ← hclose]
            exact min_le_right _ _
          · rw [if_neg hcn] at hsi
            rcases le_or_lt s.best.cost (tourCost mat p) with hle2 | hgt
            · exact Or.inl (le_trans hmono hle2)
            · have hkn : k + 1 < n := by omega
              set nbr := ((0 : Int) :: p).getD (k + 1) 0 with hnbr
              have hplen2 : ((0 : Int) :: p).length = p.length + 1 := by simp
              have hnbrmem : nbr ∈ p := by
                rw [hnbr, List.getD_cons_succ]
                exact getD_mem_of_lt p k (by omega)
              have hnbrrange : 0 < nbr ∧ nbr < (n : Int) :=
                (mem_ascCities n nbr).mp (hperm.mem_iff.mp hnbrmem)
              have hpfne : tourPfx t ≠ [] := by
                intro hnil
                rw [hnil] at hplen
                simp at hplen
                omega
              have hcost2 : t.cost + mat rep.city nbr =
                  pathCost mat (((0 : Int) :: p).take (k + 2)) := by
                rw [show k + 2 = (k + 1) + 1 from rfl,
                  take_succ_concat _ (k + 1) (by omega),
                  pathCost_concat mat _ _ (by rw [← hpfxT]; exact hpfne)]
                rw [hcost, hpfxT, ← hpfxT, hlast]
              have hfeas : Feasible mat rep.city nbr t b = true := by
                rw [Feasible_iff]
                constructor
                · rw [hpfxT]
                  exact getD_not_mem_take _ (k + 1) (cycle_nodup n p hperm) (by omega)
                · calc t.cost + mat rep.city nbr
                      = pathCost mat (((0 : Int) :: p).take (k + 2)) := hcost2
                    _ ≤ tourCost mat p :=
                        prefixCost_le_tourCost mat n hwf p hperm (by omega) (k + 2)
                          (by omega) (by omega)
                    _ < s.best.cost := hgt
                    _ ≤ b := hb
              rw [expandLoop_eq mat n t rep.city b hnle (descCities n) []] at hsi
              injection hsi with hsi
              subst hsi
              refine Or.inr ⟨mkPushed mat n t rep.city nbr, ?_, ?_⟩
              · apply List.mem_append_left
                apply List.mem_append_left
                apply List.mem_append_left
                apply List.mem_map_of_mem
                rw [List.mem_reverse, List.mem_filter]
                exact ⟨(mem_descCities n nbr).mpr ⟨hnbrrange.1, hnbrrange.2⟩, hfeas⟩
              · refine ⟨k + 1, by omega, by omega, htcount, ?_, hnbr, ?_⟩
                · show (t.cities.take n).take t.count = _
                  rw [List.take_take, show min t.count n = t.count from by omega]
                  exact hpfxT
                · show mat rep.city nbr = _
                  rw [show k + 1 - 1 = k from rfl, ← hkcity, hnbr]
      · refine Or.inr ⟨rep, ?_, hrep⟩
        show rep ∈ r.1 ++ pre ++ post
        exact List.mem_append_right _ hpost

theorem initState_InvC (mat : Int → Int → Int) (n T : Nat) (p : List Int)
    (hn : 2 ≤ n) (hT : 1 ≤ T) (hperm : p.Perm (ascCities n)) :
    InvC mat n p (initState mat n T) := by
  right
  have hplen : p.length = n - 1 := by
    have := hperm.length_eq
    rwa [ascCities_length] at this
  set c0 := p.getD 0 0 with hc0
  have hc0mem : c0 ∈ p := getD_mem_of_lt p 0 (by omega)
  have hc0r : 0 < c0 ∧ c0 < (n : Int) :=
    (mem_ascCities n c0).mp (hperm.mem_iff.mp hc0mem)
  have hcs : c0.toNat ∈ (List.range T).flatMap (fun r => seedCities n T r) := by
    rw [seedCities_union n T T, firstFinalCity_last n T (by omega) hT,
      List.mem_range'_1]
    omega
  rw [List.mem_flatMap] at hcs
  obtain ⟨r, hr, hcs⟩ := hcs
  have hcast : ((c0.toNat : Nat) : Int) = c0 := by omega
  refine ⟨⟨seedTour n, ((c0.toNat : Nat) : Int), mat 0 ((c0.toNat : Nat) : Int)⟩, ?_, ?_⟩
  · simp only [initState, List.mem_flatMap]
    exact ⟨r, hr, by unfold seedItems; exact List.mem_map_of_mem _ hcs⟩
  · refine ⟨1, le_refl 1, by omega, rfl, ?_, ?_, ?_⟩
    · rw [show tourPfx ((⟨seedTour n, ((c0.toNat : Nat) : Int),
        mat 0 ((c0.toNat : Nat) : Int)⟩ : StackElt)).tour = tourPfx (seedTour n) from rfl,
        seedTour_pfx]
      rfl
    · show ((c0.toNat : Nat) : Int) = ((0 : Int) :: p).getD 1 0
      rw [hcast, List.getD_cons_succ]
    · show mat 0 ((c0.toNat : Nat) : Int) = _
      rw [hcast]
      congr 1

theorem InvC_reachable (mat : Int → Int → Int) (n : Nat) (p : List Int)
    (hwf : WellFormedMat mat n) (hperm : p.Perm (ascCities n)) (hn : 2 ≤ n)
    (s s2 : MState) (hinv : Inv mat n s) (hc : InvC mat n p s)
    (hreach : Reachable mat n s s2) : InvC mat n p s2 := by
  induction hreach with
  | refl => exact hc
  | tail hr hstep ih =>
    exact InvC_step mat n p hwf hperm hn _ _
      (Inv_reachable mat n s _ hinv hr).1 ih hstep

/-- C1 (amended): for every well-formed cost matrix with `n ≥ 2` cities
whose true minimum Hamiltonian-cycle cost is strictly below the program's
finite sentinel `INFINITY = 1000000`, and any `thread_count ≥ 1`, every run
of the search machine (any interleaving, any stale bounds at least the
current champion cost) that drains the frontier ends with the champion cost
equal to the true minimum cycle cost.  The original claim's "cost = +∞"
initialization is in fact the finite sentinel `1000000`, so matrices whose
optimum reaches the sentinel — and the degenerate `n = 1` instance, which
seeds no work at all — are excluded. -/
theorem claim_C1_search_optimal (mat : Int → Int → Int) (n T : Nat)
    (hn : 2 ≤ n) (hT : 1 ≤ T) (hwf : WellFormedMat mat n) (copt : Int)
    (hmin : minTourCost mat n = some copt) (hcopt : copt < INFINITY)
    (s : MState) (hreach : Reachable mat n (initState mat n T) s)
    (hdone : s.frontier = []) : s.best.cost = copt := by
  obtain ⟨hmem, hle⟩ := min?_spec _ copt hmin
  obtain ⟨p, hpmem, hpeq⟩ := List.mem_map.mp hmem
  have hperm : p.Perm (ascCities n) := permsOf_sound _ p hpmem
  have hinv0 := initState_Inv mat n T (by omega) hT
  have hinvs := (Inv_reachable mat n _ s hinv0 hreach).1
  have hcs := InvC_reachable mat n p hwf hperm hn _ s hinv0
    (initState_InvC mat n T p hn hT hperm) hreach
  rcases hcs with hble | ⟨witit, hwitmem, -⟩
  · rw [hpeq] at hble
    obtain ⟨-, -, hor⟩ := hinvs.2
    rcases hor with hINF | ⟨q, hqperm, hqeq⟩
    · rw [hINF] at hble
      omega
    · have hql : copt ≤ tourCost mat q :=
        hle _ (List.mem_map_of_mem _ (permsOf_complete _ q hqperm))
      rw [hqeq]
      omega
  · rw [hdone] at hwitmem
    exact absurd hwitmem (List.not_mem_nil _)

/-- A well-formed 2-city matrix whose only Hamiltonian cycle costs
1200000 — at least the program's sentinel. -/
def bigCostMat : Int → Int → Int := fun i j => if i = j then 0 else 600000

/-- A well-formed 2-city matrix with unit costs. -/
def unitCostMat : Int → Int → Int := fun i j => if i = j then 0 else 1

/-- Counterexample to C1 as stated: with the well-formed 2-city matrix whose
off-diagonal costs are 600000 and one thread, the search drains its frontier
yet the champion still costs 1000000 — the finite `INFINITY` sentinel the
champion was really initialized with instead of the claim's +∞ — while the
true minimum Hamiltonian-cycle cost is 1200000. -/
theorem claim_C1_counterexample :
    WellFormedMat bigCostMat 2 ∧
    (∃ s : MState, Reachable bigCostMat 2 (initState bigCostMat 2 1) s ∧
      s.frontier = [] ∧ s.best.cost = 1000000) ∧
    minTourCost bigCostMat 2 = some 1200000 ∧
    (1000000 : Int) ≠ 1200000 := by
  refine ⟨⟨?_, ?_⟩, ⟨⟨[], initBest 2⟩, ?_, rfl, rfl⟩, by decide, by decide⟩
  · intro i h0 hn
    simp [bigCostMat]
  · intro i j h0 hn h0j hnj hne
    simp [bigCostMat, hne]
  · apply Relation.ReflTransGen.single
    exact ⟨[], ⟨seedTour 2, 1, bigCostMat 0 1⟩, [], 1000000, ([], initBest 2),
      by decide, by decide, by decide, rfl⟩

/-- Witness for the amended C1 at the unit-cost 2-city instance, whose
optimal cycle costs 2. -/
theorem claim_C1_search_optimal_witness :
    (2 ≤ 2 ∧ 1 ≤ 1 ∧ WellFormedMat unitCostMat 2 ∧
      minTourCost unitCostMat 2 = some 2 ∧ (2 : Int) < INFINITY ∧
      Reachable unitCostMat 2 (initState unitCostMat 2 1)
        ⟨[], ⟨[0, 1, 0], 3, 2⟩⟩ ∧
      (⟨[], ⟨[0, 1, 0], 3, 2⟩⟩ : MState).frontier = []) ∧
    (⟨[], ⟨[0, 1, 0], 3, 2⟩⟩ : MState).best.cost = 2 := by
  have hwf : WellFormedMat unitCostMat 2 := by
    constructor
    · intro i _ _
      simp [unitCostMat]
    · intro i j _ _ _ _ hne
      simp [unitCostMat, hne]
  have hreach : Reachable unitCostMat 2 (initState unitCostMat 2 1)
      ⟨[], ⟨[0, 1, 0], 3, 2⟩⟩ := by
    apply Relation.ReflTransGen.single
    exact ⟨[], ⟨seedTour 2, 1, unitCostMat 0 1⟩, [], 1000000,
      ([], ⟨[0, 1, 0], 3, 2⟩), by decide, by decide, by decide, rfl⟩
  exact ⟨⟨by omega, by omega, hwf, by decide, by decide, hreach, rfl⟩,
    claim_C1_search_optimal unitCostMat 2 1 (by omega) (by omega) hwf 2
      (by decide) (by decide) ⟨[], ⟨[0, 1, 0], 3, 2⟩⟩ hreach rfl⟩

/-! ## The termination / load-balancing protocol (Terminated, lines 866-905)

Each mutex-protected section of `Terminated` is modelled as one atomic
transition on the shared coordinator state; a call either returns (with the
possibly replaced stack and the new shared state) or parks the caller on the
condition variable.  A parked caller resumes later through the wake path
(lines 888-901), again under the mutex. -/

structure TermGlobal where
  tcw : Nat
  newStack : List StackElt
  newStackSize : Nat
deriving Repr, DecidableEq

inductive TermOutcome where
  | ret (terminated : Bool) (myStack : List StackElt) (mySize : Nat) (g : TermGlobal)
  | park (g : TermGlobal)
deriving Repr, DecidableEq

/-- One call of `Terminated` up to returning or blocking on the condition
variable.  `none` models the undefined behaviour of `Split_stack` on a stack
of fewer than two nodes. -/
def Terminated_call (T : Nat) (myStack : List StackElt) (mySize : Nat)
    (g : TermGlobal) : Option TermOutcome :=
  if 2 ≤ mySize ∧ 0 < g.tcw ∧ g.newStack = [] then
    if 0 < g.tcw ∧ g.newStack = [] then
      match Split_stack myStack with
      | some (my2, nw2, ms2, ns2) =>
        some (.ret false my2 ms2 { g with newStack := nw2, newStackSize := ns2 })
      | none => none
    else some (.ret false myStack mySize g)
  else if ¬ Empty myStack then
    some (.ret false myStack mySize g)
  else
    if g.tcw = T - 1 then
      some (.ret true myStack mySize { g with tcw := g.tcw + 1 })
    else
      some (.park { g with tcw := g.tcw + 1 })

/-- The continuation of a parked `Terminated` call after a wakeup, under the
mutex: either adopt the staged stack or, when every thread is already
counted as waiting, terminate. -/
def Terminated_wake (T : Nat) (g : TermGlobal) : TermOutcome :=
  if g.tcw < T then
    .ret false g.newStack g.newStackSize
      { g with newStack := [], newStackSize := 0, tcw := g.tcw - 1 }
  else
    .ret true [] 0 g

/-- A concrete pending work item used in the failing schedule. -/
def demoItem : StackElt := ⟨⟨[0, -1, -1], 1, 0⟩, 1, 5⟩

/-- A second concrete pending work item. -/
def demoItem2 : StackElt := ⟨⟨[0, -1, -1], 1, 0⟩, 2, 7⟩

/-- C2 evaluated at the failing schedule (thread_count = 2): worker B parks;
worker A holds two items, splits, stages the donated half and signals
(returning FALSE without blocking — the claim's second half does hold);
A then exhausts its retained half and re-enters `Terminated` before B has
re-acquired the mutex, sees `threads_in_cond_wait = thread_count - 1`, and
returns TRUE — while the staged donation is still pending — after which the
awakened B also returns TRUE and the staged item is abandoned.  So
`Terminated` can return TRUE in a state where a donation is pending,
contradicting the claim's (and the spec's) termination-soundness property. -/
theorem claim_C2_terminated_pending_donation :
    Terminated_call 2 [] 0 ⟨0, [], 0⟩ = some (.park ⟨1, [], 0⟩) ∧
    Terminated_call 2 [demoItem, demoItem2] 2 ⟨1, [], 0⟩ =
      some (.ret false [demoItem] 1 ⟨1, [demoItem2], 1⟩) ∧
    Terminated_call 2 [] 0 ⟨1, [demoItem2], 1⟩ =
      some (.ret true [] 0 ⟨2, [demoItem2], 1⟩) ∧
    (⟨1, [demoItem2], 1⟩ : TermGlobal).newStack ≠ [] ∧
    Terminated_wake 2 ⟨2, [demoItem2], 1⟩ = .ret true [] 0 ⟨2, [demoItem2], 1⟩ := by
  refine ⟨by decide, by decide, by decide, by decide, by decide⟩

/-! ## The external command surface (main lines 510-524, Usage lines 566-569) -/

inductive MainOutcome where
  | usageExit (status : Int)
  | runSearch (threadCount : Int)
deriving Repr, DecidableEq

/-- The argument-handling prefix of `main`: wrong argument count or an
unopenable matrix file lead to `Usage`, which prints the usage message and
calls `exit(0)`; otherwise the program proceeds into the search with
`thread_count = strtol(argv[1])`, unvalidated. -/
def mainEntry (argc : Nat) (tcArg : Int) (fileOpens : Bool) : MainOutcome :=
  if argc ≠ 3 then .usageExit 0
  else if ¬ fileOpens then .usageExit 0
  else .runSearch tcArg

/-- Counterexample to C10 as stated: invoking the program with
`thread_count = "0"` (strtol yields 0, not a positive integer) and a
readable matrix file does not print usage and exit — the core runs with
`thread_count = 0`. -/
theorem claim_C10_counterexample :
    mainEntry 3 0 true = .runSearch 0 ∧
    ∀ st, mainEntry 3 0 true ≠ .usageExit st := by
  refine ⟨rfl, ?_⟩
  intro st h
  exact MainOutcome.noConfusion h

/-- C10 (amended): the external layer prints usage and exits with the
non-error status 0, before the core search runs, exactly on a wrong argument
count or an unopenable matrix source; a thread_count argument that is not a
positive integer is NOT rejected — the program proceeds into the core with
whatever integer `strtol` produced. -/
theorem claim_C10_usage_exit (argc : Nat) (tcArg : Int) (fileOpens : Bool)
    (h : argc ≠ 3 ∨ fileOpens = false) :
    mainEntry argc tcArg fileOpens = .usageExit 0 := by
  rcases h with h | h
  · simp [mainEntry, h]
  · subst h
    by_cases h2 : argc = 3 <;> simp [mainEntry, h2]

/-- Witness for C10 at a two-argument invocation. -/
theorem claim_C10_usage_exit_witness :
    ((2 : Nat) ≠ 3 ∨ true = false) ∧ mainEntry 2 4 true = .usageExit 0 :=
  ⟨Or.inl (by decide), claim_C10_usage_exit 2 4 true (Or.inl (by decide))⟩

/-- Witness for C8: the registry at `n = 2` receiving two concrete complete
tours with closing costs `9` and `4`. -/
theorem claim_C8_registry_monoid_witness :
    ((⟨[-1, -1, -1], 0, INFINITY⟩ : Tour).cities.length = 2 + 1 ∧
      (∀ s ∈ ([(1, ⟨[0, 1], 2, 5⟩), (1, ⟨[0, 1], 2, 0⟩)] : List (Int × Tour)),
        s.2.count ≤ s.2.cities.length ∧ s.2.count ≤ 2 + 1)) ∧
    ∃ b2 l2, commitAll (fun _ _ => 4) 2 ⟨[-1, -1, -1], 0, INFINITY⟩ INFINITY
        [(1, ⟨[0, 1], 2, 5⟩), (1, ⟨[0, 1], 2, 0⟩)] = some (b2, l2) ∧
      b2.cost ≤ (⟨[-1, -1, -1], 0, INFINITY⟩ : Tour).cost ∧
      (∀ s ∈ ([(1, ⟨[0, 1], 2, 5⟩), (1, ⟨[0, 1], 2, 0⟩)] : List (Int × Tour)),
        b2.cost ≤ closingCost (fun _ _ => 4) s) ∧
      (b2.cost = (⟨[-1, -1, -1], 0, INFINITY⟩ : Tour).cost ∨
        ∃ s ∈ ([(1, ⟨[0, 1], 2, 5⟩), (1, ⟨[0, 1], 2, 0⟩)] : List (Int × Tour)),
          b2.cost = closingCost (fun _ _ => 4) s) ∧
      (∀ subs2 lbest2 b3 l3,
        ([(1, ⟨[0, 1], 2, 5⟩), (1, ⟨[0, 1], 2, 0⟩)] : List (Int × Tour)).Perm subs2 →
        commitAll (fun _ _ => 4) 2 ⟨[-1, -1, -1], 0, INFINITY⟩ lbest2 subs2 =
          some (b3, l3) → b3.cost = b2.cost) ∧
      (∀ c t, ¬ t.cost + 4 < b2.cost →
        Check_best_tour (fun _ _ => 4) 2 c t b2 = some (b2, b2.cost)) :=
  ⟨⟨rfl, by decide⟩,
    claim_C8_registry_monoid (fun _ _ => 4) 2 ⟨[-1, -1, -1], 0, INFINITY⟩ INFINITY
      [(1, ⟨[0, 1], 2, 5⟩), (1, ⟨[0, 1], 2, 0⟩)] rfl (by decide)⟩

end PthTsp
